import Mathlib

/-!
Verification development for the `tdapokerengine` repository: a shallow
embedding in Lean 4 of the poker engine's data model and operations
(`poker_engine/cards.py`, `poker_engine/player.py`, `poker_engine/actions.py`,
`poker_engine/evaluator.py`, `poker_engine/game.py`), together with theorems
settling the specification claims.

Modelling conventions:
* Python floats used for chip amounts are modelled by exact rationals `ℚ`
  (the design document itself treats floating point as "a liability to
  avoid, not a behavior to reproduce" and the rules as amount-agnostic).
* The shuffled deck produced by `Deck.reset()` (which delegates to the
  process-global `random.shuffle`) is modelled by passing the shuffled card
  order to `startHand` as an explicit argument.
* Python exceptions (`ValueError` raised by `Deck.deal`, `start_hand`) are
  modelled with `Except String`.
* `hand_history` strings are modelled by a structured event type carrying
  the same data; the textual rendering is presentation only.
* Python `set` iteration over small-int player ids is modelled as a list
  kept in ascending order (CPython behaviour for small ints).
* The recursion of `_advance_street` (which advances the street on every
  recursive call, so its depth is bounded by the number of streets) is
  modelled with a fuel parameter that is always sufficient.
-/

namespace TdaPoker

/-- Suits, from `Card.SUITS` in `cards.py`. -/
inductive Suit where
  | spades | hearts | diamonds | clubs
deriving DecidableEq, Inhabited

/-- Card ranks, from `Card.RANKS` in `cards.py`. -/
inductive CRank where
  | r2 | r3 | r4 | r5 | r6 | r7 | r8 | r9 | rT | rJ | rQ | rK | rA
deriving DecidableEq, Inhabited

/-- `HandEvaluator.RANK_VALUES` from `evaluator.py`: 2..9 -> 2..9, T=10, J=11, Q=12, K=13, A=14. -/
def rankValue : CRank → ℕ
  | .r2 => 2 | .r3 => 3 | .r4 => 4 | .r5 => 5 | .r6 => 6 | .r7 => 7 | .r8 => 8
  | .r9 => 9 | .rT => 10 | .rJ => 11 | .rQ => 12 | .rK => 13 | .rA => 14

/-- A playing card (`Card` in `cards.py`): identity is the pair (suit, rank). -/
structure Card where
  suit : Suit
  rank : CRank
deriving DecidableEq, Inhabited

/-- The list of all suits in the order of `Card.SUITS`. -/
def allSuits : List Suit := [.spades, .hearts, .diamonds, .clubs]

/-- The list of all ranks in the order of `Card.RANKS`. -/
def allRanks : List CRank :=
  [.r2, .r3, .r4, .r5, .r6, .r7, .r8, .r9, .rT, .rJ, .rQ, .rK, .rA]

/-- The 52-card deck in the order built by `Deck.reset` (before shuffling):
`for suit in SUITS for rank in RANKS`. -/
def fullDeck : List Card :=
  allSuits.flatMap (fun s => allRanks.map (fun r => ⟨s, r⟩))

/-- `Deck.deal(n)`: removes and returns the first `n` cards, failing when
fewer than `n` remain (`ValueError` in the source). -/
def deckDeal (n : ℕ) (cards : List Card) : Except String (List Card × List Card) :=
  if cards.length < n then .error "Not enough cards in deck"
  else .ok (cards.take n, cards.drop n)

/-! ### Hand evaluator (`evaluator.py`)

`_get_score` works on "processed cards": pairs of (rank value, suit). -/

/-- Processed card, `(RANK_VALUES[card.rank], card.suit)` in `evaluator.py`. -/
abbrev PCard := ℕ × Suit

/-- Descending-by-rank order used by `cards.sort(key=lambda x: x[0], reverse=True)`. -/
def rankDesc : PCard → PCard → Prop := fun a b => b.1 ≤ a.1

instance : DecidableRel rankDesc := fun a b => inferInstanceAs (Decidable (b.1 ≤ a.1))

instance : IsTotal PCard rankDesc := ⟨fun a b => by unfold rankDesc; exact Nat.le_total b.1 a.1⟩

instance : IsTrans PCard rankDesc := ⟨fun _ _ _ h1 h2 => Nat.le_trans h2 h1⟩

/-- Descending order on naturals, for `sorted(set(ranks), reverse=True)`. -/
def natDesc : ℕ → ℕ → Prop := fun a b => b ≤ a

instance : DecidableRel natDesc := fun a b => inferInstanceAs (Decidable (b ≤ a))

instance : IsTotal ℕ natDesc := ⟨fun a b => by unfold natDesc; exact Nat.le_total b a⟩

instance : IsTrans ℕ natDesc := ⟨fun _ _ _ h1 h2 => Nat.le_trans h2 h1⟩

instance : IsAntisymm ℕ natDesc := ⟨fun _ _ h1 h2 => Nat.le_antisymm h2 h1⟩

/-- The scan `for i in range(len(u)-4): if u[i]-u[i+4]==4: return u[i]` from
`_check_straight`, expressed as a recursion over successive windows of five. -/
def scanStraight : List ℕ → ℕ
  | a :: b :: c :: d :: e :: rest => if a - e = 4 then a else scanStraight (b :: c :: d :: e :: rest)
  | _ => 0

/-- `HandEvaluator._check_straight`: on the deduplicated, descending-sorted
ranks, look for five ranks spanning exactly 4 (a straight, highest first);
otherwise check for the wheel A-5-4-3-2, which scores as a 5-high straight. -/
def checkStraight (ranks : List ℕ) : ℕ :=
  let u := (ranks.dedup).insertionSort natDesc
  let s := scanStraight u
  if s ≠ 0 then s
  else if 14 ∈ u ∧ 5 ∈ u ∧ 4 ∈ u ∧ 3 ∈ u ∧ 2 ∈ u then 5
  else 0

/-- Descending order on `(rank, count)` pairs by key `(count, rank)`, used by
`sorted(rank_counts.items(), key=lambda x: (x[1], x[0]), reverse=True)`. -/
def countDesc : (ℕ × ℕ) → (ℕ × ℕ) → Prop :=
  fun a b => b.2 < a.2 ∨ (b.2 = a.2 ∧ b.1 ≤ a.1)

instance : DecidableRel countDesc := fun a b =>
  inferInstanceAs (Decidable (b.2 < a.2 ∨ (b.2 = a.2 ∧ b.1 ≤ a.1)))

instance : IsTotal (ℕ × ℕ) countDesc := by
  constructor
  intro a b
  unfold countDesc
  rcases Nat.lt_trichotomy a.2 b.2 with h | h | h
  · exact Or.inr (Or.inl h)
  · rcases Nat.le_total a.1 b.1 with h' | h'
    · exact Or.inr (Or.inr ⟨h, h'⟩)
    · exact Or.inl (Or.inr ⟨h.symm, h'⟩)
  · exact Or.inl (Or.inl h)

instance : IsTrans (ℕ × ℕ) countDesc := by
  constructor
  intro a b c h1 h2
  unfold countDesc at *
  rcases h1 with h1 | ⟨h1, h1'⟩ <;> rcases h2 with h2 | ⟨h2, h2'⟩
  · exact Or.inl (Nat.lt_trans h2 h1)
  · exact Or.inl (h2 ▸ h1)
  · exact Or.inl (h1 ▸ h2)
  · exact Or.inr ⟨h1 ▸ h2, Nat.le_trans h2' h1'⟩

/-- `Counter(ranks)` sorted by `(count, rank)` descending: the distinct ranks
(first-occurrence order, like dict insertion order) paired with their
multiplicities, then sorted. -/
def sortedCounts (ranks : List ℕ) : List (ℕ × ℕ) :=
  (ranks.dedup.map (fun r => (r, ranks.count r))).insertionSort countDesc

/-- The `score |= value << shift` accumulation pattern of `_get_score`:
OR each rank into the score at 4-bit fields starting at `shift` and
descending by 4 per element. -/
def orFields : ℕ → List ℕ → ℕ → ℕ
  | acc, [], _ => acc
  | acc, r :: rest, shift => orFields (acc ||| (r <<< shift)) rest (shift - 4)

/-- The flush-suit search of `_get_score`: the first suit (in first-occurrence
order, like `Counter` iteration) with five or more cards. -/
def flushSuitOf (cards : List PCard) : Option Suit :=
  ((cards.map Prod.snd).dedup).find? (fun s => 5 ≤ cards.countP (fun c => c.2 == s))

/-- Category constants of `HandEvaluator` (`HIGH_CARD = 0` .. `ROYAL_FLUSH = 9`). -/
def HIGH_CARD : ℕ := 0
def PAIR : ℕ := 1
def TWO_PAIR : ℕ := 2
def THREE_OF_A_KIND : ℕ := 3
def STRAIGHT : ℕ := 4
def FLUSH : ℕ := 5
def FULL_HOUSE : ℕ := 6
def FOUR_OF_A_KIND : ℕ := 7
def STRAIGHT_FLUSH : ℕ := 8

/-- `HandEvaluator._get_score`: best 5-card score of the processed cards.
Format: `(category << 20) | tiebreakers`, tiebreakers in 4-bit fields. -/
def getScore (cards : List PCard) : ℕ :=
  let sorted := cards.insertionSort rankDesc
  match flushSuitOf sorted with
  | some fs =>
    let flushCards := sorted.filter (fun c => c.2 == fs)
    let sf := checkStraight (flushCards.map Prod.fst)
    if sf ≠ 0 then (STRAIGHT_FLUSH <<< 20) ||| sf
    else orFields (FLUSH <<< 20) ((flushCards.take 5).map Prod.fst) 16
  | none =>
    let ranks := sorted.map Prod.fst
    let st := checkStraight ranks
    if st ≠ 0 then (STRAIGHT <<< 20) ||| st
    else
      match sortedCounts ranks with
      | [] => HIGH_CARD <<< 20
      | (r0, c0) :: restC =>
        if c0 = 4 then
          orFields (FOUR_OF_A_KIND <<< 20) [r0, ((restC.map Prod.fst).headD 0)] 16
        else if c0 = 3 ∧ 2 ≤ (restC.headD (0, 0)).2 then
          orFields (FULL_HOUSE <<< 20) [r0, (restC.headD (0, 0)).1] 16
        else if c0 = 3 then
          orFields (THREE_OF_A_KIND <<< 20) (r0 :: (restC.map Prod.fst).take 2) 16
        else if c0 = 2 ∧ (restC.headD (0, 0)).2 = 2 then
          orFields (TWO_PAIR <<< 20)
            [r0, (restC.headD (0, 0)).1, (((restC.map Prod.fst).drop 1).headD 0)] 16
        else if c0 = 2 then
          orFields (PAIR <<< 20) (r0 :: (restC.map Prod.fst).take 3) 16
        else
          orFields (HIGH_CARD <<< 20) (ranks.take 5) 16

/-- The category `_get_score` classifies the cards into: this mirrors the
branch structure of `getScore` but returns only the category constant.
(Used to state that tiebreaker bits never leak into the category field.) -/
def catOf (cards : List PCard) : ℕ :=
  let sorted := cards.insertionSort rankDesc
  match flushSuitOf sorted with
  | some fs =>
    let flushCards := sorted.filter (fun c => c.2 == fs)
    let sf := checkStraight (flushCards.map Prod.fst)
    if sf ≠ 0 then STRAIGHT_FLUSH else FLUSH
  | none =>
    let ranks := sorted.map Prod.fst
    let st := checkStraight ranks
    if st ≠ 0 then STRAIGHT
    else
      match sortedCounts ranks with
      | [] => HIGH_CARD
      | (_, c0) :: restC =>
        if c0 = 4 then FOUR_OF_A_KIND
        else if c0 = 3 ∧ 2 ≤ (restC.headD (0, 0)).2 then FULL_HOUSE
        else if c0 = 3 then THREE_OF_A_KIND
        else if c0 = 2 ∧ (restC.headD (0, 0)).2 = 2 then TWO_PAIR
        else if c0 = 2 then PAIR
        else HIGH_CARD

/-- Conversion of a `Card` list to processed cards, as in `HandEvaluator.evaluate`. -/
def processCards (cards : List Card) : List PCard :=
  cards.map (fun c => (rankValue c.rank, c.suit))

/-- `HandEvaluator.evaluate(hole_cards, community_cards)`: 0 on no cards,
otherwise the `_get_score` of the processed cards. -/
def evaluate (hole community : List Card) : ℕ :=
  let allCards := hole ++ community
  if allCards.isEmpty then 0 else getScore (processCards allCards)

/-- The category of the best hand, as classified by the evaluator's branch
structure (cf. `get_hand_name`, which recovers it as `score >> 20`). -/
def handCategory (hole community : List Card) : ℕ :=
  let allCards := hole ++ community
  if allCards.isEmpty then 0 else catOf (processCards allCards)

/-- The ranks of the flush-suit cards examined by the straight-flush test in
`_get_score` (empty when there is no flush). -/
def flushRanksOf (cards : List PCard) : List ℕ :=
  let sorted := cards.insertionSort rankDesc
  match flushSuitOf sorted with
  | some fs => (sorted.filter (fun c => c.2 == fs)).map Prod.fst
  | none => []

/-! ### Actions and the validator (`actions.py`) -/

/-- `ActionType` from `actions.py`. -/
inductive ActionType where
  | fold | check | call | bet | raiseTo | allIn
deriving DecidableEq, Inhabited

/-- `Action`: a tagged action with an amount (`0` for fold/check/call; for
`raiseTo` the amount is the total bet to raise to). -/
structure Action where
  action_type : ActionType
  amount : ℚ
deriving DecidableEq, Inhabited

/-- `ActionValidator.validate_action`: numeric legality of a specific action
against a snapshot of the table numbers; `(false, reason)` on rejection. -/
def validateAction (a : Action) (player_chips current_bet player_bet_this_round min_raise : ℚ)
    (_pot_size : ℚ) : Bool × Option String :=
  let amount_to_call := current_bet - player_bet_this_round
  match a.action_type with
  | .fold => (true, none)
  | .check =>
    if 0 < amount_to_call then (false, some "Cannot check when facing a bet")
    else (true, none)
  | .call =>
    if amount_to_call ≤ 0 then (false, some "Nothing to call")
    else if player_chips < amount_to_call then
      (false, some "Not enough chips to call (should be all-in)")
    else (true, none)
  | .bet =>
    if 0 < current_bet then (false, some "Cannot bet when facing a bet (use raise)")
    else if player_chips < a.amount then (false, some "Bet exceeds chip count")
    else (true, none)
  | .raiseTo =>
    if current_bet = 0 then (false, some "Cannot raise when no bet exists (use bet)")
    else if a.amount - current_bet < min_raise then (false, some "Raise below minimum")
    else if player_chips + player_bet_this_round < a.amount then
      (false, some "Not enough chips (use all-in instead)")
    else (true, none)
  | .allIn =>
    if player_chips ≤ 0 then (false, some "No chips to go all-in with")
    else (true, none)

/-- `ActionValidator.get_legal_actions`: the ordered list of legal action
kinds for the given table numbers. -/
def legalActionKinds (player_chips current_bet player_bet_this_round min_raise _big_blind : ℚ) :
    List ActionType :=
  let amount_to_call := current_bet - player_bet_this_round
  [ActionType.fold]
    ++ (if amount_to_call = 0 then [ActionType.check]
        else if amount_to_call ≤ player_chips then [ActionType.call] else [])
    ++ (if amount_to_call < player_chips then
          if current_bet = 0 then [ActionType.bet]
          else if min_raise ≤ player_chips - amount_to_call then [ActionType.raiseTo] else []
        else [])
    ++ (if 0 < player_chips then [ActionType.allIn] else [])

/-! ### Player (`player.py`) -/

/-- `PlayerState` from `player.py`. -/
inductive PState where
  | active | folded | allIn
deriving DecidableEq, Inhabited

/-- The values taken by `Player.last_action` (structured counterpart of the
strings assigned in `player.py`/`game.py`; textual rendering abstracted). -/
inductive LastAction where
  | postSB | postBB | foldedL | checkL
  | callA (amount : ℚ) | betA (amount : ℚ) | raiseToA (amount : ℚ) | allInA (amount : ℚ)
deriving DecidableEq, Inhabited

/-- `Player` from `player.py`. -/
structure Player where
  player_id : ℕ
  chips : ℚ
  hand : List Card
  pstate : PState
  bet_this_round : ℚ
  bet_this_hand : ℚ
  last_action : Option LastAction
deriving DecidableEq

instance : Inhabited Player :=
  ⟨{ player_id := 0, chips := 0, hand := [], pstate := .active,
     bet_this_round := 0, bet_this_hand := 0, last_action := none }⟩

/-- `Player.is_folded`. -/
def Player.is_folded (p : Player) : Bool := p.pstate == .folded

/-- `Player.is_all_in`. -/
def Player.is_all_in (p : Player) : Bool := p.pstate == .allIn

/-- `Player.place_bet(amount)`: the actual wager is `min(amount, chips)`;
chips decrease and both bet counters increase by it; the state becomes
`ALL_IN` when the remaining chips are `≤ 0`.  Returns the updated player and
the actual amount. -/
def placeBet (p : Player) (amount : ℚ) : Player × ℚ :=
  let actual := min amount p.chips
  let p' := { p with chips := p.chips - actual,
                     bet_this_round := p.bet_this_round + actual,
                     bet_this_hand := p.bet_this_hand + actual }
  if p'.chips ≤ 0 then ({ p' with pstate := .allIn }, actual) else (p', actual)

/-- `Player.post_blind`: identical to `place_bet`. -/
def postBlind (p : Player) (amount : ℚ) : Player × ℚ := placeBet p amount

/-- `Player.reset_for_new_round`: clears `bet_this_round` and `last_action`. -/
def resetForNewRound (p : Player) : Player :=
  { p with bet_this_round := 0, last_action := none }

/-! ### Game state (`game.py`) -/

/-- `Street` from `game.py`. -/
inductive Street where
  | preflop | flop | turn | river | showdown
deriving DecidableEq, Inhabited

/-- `Pot`: an amount and the player indices eligible to win it. -/
structure Pot where
  amount : ℚ
  eligible_players : List ℕ
deriving DecidableEq

/-- Structured counterpart of the `hand_history` strings appended by
`game.py` (one constructor per `hand_history.append` site; text rendering
abstracted, `showdownHand` carries the category `score >> 20` shown by
`get_hand_name`). -/
inductive HistEvent where
  | handStarted (numPlayers : ℕ)
  | positions (button sb bb : ℕ)
  | playerFolds (pid : ℕ)
  | playerChecks (pid : ℕ)
  | playerCalls (pid : ℕ) (amount : ℚ)
  | playerBets (pid : ℕ) (amount : ℚ)
  | playerRaises (pid : ℕ) (toAmount : ℚ)
  | playerAllIn (pid : ℕ) (amount : ℚ)
  | flopDealt (cards : List Card)
  | turnDealt (card : Card)
  | riverDealt (card : Card)
  | winsByFold (pid : ℕ) (amount : ℚ)
  | showdownLine
  | showdownHand (pid : ℕ) (category : ℕ)
  | potAward (potIdx : ℕ) (winners : List ℕ) (amount : ℚ)
deriving DecidableEq

/-- The mutable state of `PokerGame` (the fields created by `__init__` and
`start_hand`; `current_actor = -1` encodes "no actor"). -/
structure GameState where
  small_blind : ℚ
  big_blind : ℚ
  players : List Player
  deck : List Card
  community_cards : List Card
  street : Street
  pot : ℚ
  current_bet : ℚ
  min_raise : ℚ
  last_raise_amount : ℚ
  actions_this_round : ℕ
  bb_has_option : Bool
  button_position : ℕ
  hand_number : ℕ
  is_hand_over : Bool
  winner : Option ℕ
  hand_history : List HistEvent
  current_actor : ℤ
deriving DecidableEq

instance : Inhabited GameState :=
  ⟨{ small_blind := 0, big_blind := 0, players := [], deck := [], community_cards := [],
     street := .preflop, pot := 0, current_bet := 0, min_raise := 0, last_raise_amount := 0,
     actions_this_round := 0, bb_has_option := false, button_position := 0, hand_number := 0,
     is_hand_over := false, winner := none, hand_history := [], current_actor := -1 }⟩

/-- List indexing `self.players[i]` (never out of range on the executions the
theorems quantify over; a default player keeps the function total). -/
def pGet (ps : List Player) (i : ℕ) : Player := ps.getD i default

/-- `dealHands`: `for player in players: player.hand = deck.deal(2)`. -/
def dealHands : List Player → List Card → Except String (List Player × List Card)
  | [], deck => .ok ([], deck)
  | p :: rest, deck =>
    match deckDeal 2 deck with
    | .error e => .error e
    | .ok (cs, d') =>
      match dealHands rest d' with
      | .error e => .error e
      | .ok (ps, d'') => .ok ({ p with hand := cs } :: ps, d'')

/-- `PokerGame.start_hand(players_info, button)` of a fresh engine with blinds
`(sb, bb)`, with the shuffled deck supplied explicitly (the source shuffles
via the process-global RNG).  Validates only `len(players_info) >= 2`; deals
two hole cards per seat; posts the blinds (heads-up: button = SB); sets
`current_bet = bb`, `min_raise = bb`; the BB option is set when the big blind
posted its full amount; first actor is the seat after the BB. -/
def startHand (sb bb : ℚ) (players_info : List (ℕ × ℚ)) (button : ℕ) (shuffled : List Card) :
    Except String GameState :=
  let n := players_info.length
  if n < 2 then .error "Need at least 2 players" else
  let initPlayers : List Player := players_info.map (fun pi =>
    { player_id := pi.1, chips := pi.2, hand := [], pstate := .active,
      bet_this_round := 0, bet_this_hand := 0, last_action := none })
  match dealHands initPlayers shuffled with
  | .error e => .error e
  | .ok (dealtPlayers, deckRest) =>
    let sbPos := if n = 2 then button else (button + 1) % n
    let bbPos := if n = 2 then (button + 1) % n else (button + 2) % n
    let sbRes := postBlind (pGet dealtPlayers sbPos) sb
    let ps1 := dealtPlayers.set sbPos { sbRes.1 with last_action := some .postSB }
    let bbRes := postBlind (pGet ps1 bbPos) bb
    let ps2 := ps1.set bbPos { bbRes.1 with last_action := some .postBB }
    .ok { small_blind := sb, big_blind := bb, players := ps2, deck := deckRest,
          community_cards := [], street := .preflop, pot := 0, current_bet := bb,
          min_raise := bb, last_raise_amount := bb, actions_this_round := 0,
          bb_has_option := decide (bb ≤ bbRes.2), button_position := button,
          hand_number := 1, is_hand_over := false, winner := none,
          hand_history := [.handStarted n, .positions button sbPos bbPos],
          current_actor := ((bbPos + 1) % n : ℕ) }

/-- `PokerGame.get_pot_size`: accumulated pot plus all current-round bets. -/
def getPotSize (s : GameState) : ℚ :=
  s.pot + (s.players.map (fun p => p.bet_this_round)).sum

/-- `PokerGame._is_betting_round_over`. -/
def isBettingRoundOver (s : GameState) : Bool :=
  let active := s.players.filter (fun p => ¬ p.is_folded)
  if active.length ≤ 1 then true
  else if s.street = .preflop ∧ s.bb_has_option then false
  else if s.current_bet = 0 then decide (active.length ≤ s.actions_this_round)
  else active.all (fun p => p.is_all_in || decide (s.current_bet ≤ p.bet_this_round))

/-- The scan of `_advance_actor` / `_advance_street`: try `n` seats starting
at `start`, returning the first non-folded, non-all-in one. -/
def findEligibleFrom (ps : List Player) (start : ℕ) : ℕ → Option ℕ
  | 0 => none
  | fuel + 1 =>
    let p := pGet ps start
    if ¬ p.is_folded ∧ ¬ p.is_all_in then some start
    else findEligibleFrom ps ((start + 1) % ps.length) fuel

/-- `PokerGame._advance_actor`: `-1` when the round is over, otherwise the
next eligible seat after the current actor (wrapping). -/
def advanceActor (s : GameState) : GameState :=
  if isBettingRoundOver s then { s with current_actor := -1 }
  else
    let n := s.players.length
    let start := ((s.current_actor + 1) % (n : ℤ)).toNat
    match findEligibleFrom s.players start n with
    | some idx => { s with current_actor := (idx : ℤ) }
    | none => { s with current_actor := -1 }

/-- `PokerGame._check_hand_over`: when a single non-folded seat remains, it
collects every `bet_this_round` into the pot (zeroing them), awards the pot
to that seat, and marks the hand over at street `SHOWDOWN`. -/
def checkHandOver (s : GameState) : GameState :=
  let active := s.players.filter (fun p => ¬ p.is_folded)
  if active.length = 1 then
    let w := s.players.findIdx (fun p => ¬ p.is_folded)
    let newPot := s.pot + (s.players.map (fun p => p.bet_this_round)).sum
    let cleared := s.players.map (fun p => { p with bet_this_round := 0 })
    let pw := pGet cleared w
    { s with winner := some w, pot := newPot,
             players := cleared.set w { pw with chips := pw.chips + newPot },
             is_hand_over := true, street := .showdown }
  else s

/-- `PokerGame._should_auto_advance`: at most one non-folded seat still has
chips while more than one seat remains non-folded. -/
def shouldAutoAdvance (s : GameState) : Bool :=
  let active := s.players.filter (fun p => ¬ p.is_folded)
  let withChips := active.filter (fun p => decide (0 < p.chips))
  decide (withChips.length ≤ 1 ∧ 1 < active.length)

/-- `pots[-1].amount += x` (no-op on an empty pot list, where the source
would drop the money after its `if pots:` guard). -/
def addToLastPot : List Pot → ℚ → List Pot
  | [], _ => []
  | [p], x => [{ p with amount := p.amount + x }]
  | p :: q :: rest, x => p :: addToLastPot (q :: rest) x

/-- The loop of `PokerGame._calculate_pots` over the ascending-sorted
positive contributions: `remaining` is the Python set `remaining_players`
(as an ascending id list).  At each strictly increasing level a pot of
`(level - previous) * |remaining|` is built for the non-folded remaining
seats; with no eligible seat the amount is merged into the previous pot. -/
def calcPotsAux (players : List Player) : ℚ → List Pot → List (ℕ × ℚ) → List ℕ → List Pot
  | _, pots, [], _ => pots
  | prev, pots, (pid, b) :: rest, remaining =>
    if prev < b then
      let potSize := (b - prev) * (remaining.length : ℚ)
      let eligible := remaining.filter (fun i => ¬ (pGet players i).is_folded)
      if eligible.isEmpty then
        calcPotsAux players b (addToLastPot pots potSize) rest (remaining.erase pid)
      else
        calcPotsAux players b (pots ++ [⟨potSize, eligible⟩]) rest (remaining.erase pid)
    else calcPotsAux players prev pots rest (remaining.erase pid)

/-- Ascending order on `(id, bet)` pairs by bet, for
`player_bets.sort(key=lambda x: x[1])`. -/
def betAsc : (ℕ × ℚ) → (ℕ × ℚ) → Prop := fun a b => a.2 ≤ b.2

instance : DecidableRel betAsc := fun a b => inferInstanceAs (Decidable (a.2 ≤ b.2))

instance : IsTotal (ℕ × ℚ) betAsc := ⟨fun a b => by unfold betAsc; exact le_total a.2 b.2⟩

instance : IsTrans (ℕ × ℚ) betAsc := ⟨fun _ _ _ h1 h2 => le_trans h1 h2⟩

instance : IsAntisymm ℕ (· < ·) := ⟨fun _ _ h1 h2 => absurd h2 (Nat.lt_asymm h1)⟩

instance : IsAntisymm ℚ (· < ·) := ⟨fun _ _ h1 h2 => absurd h2 (lt_asymm h1)⟩

/-- `PokerGame._calculate_pots`: the seats' total hand-long contributions
(folded seats included, zero contributions skipped), sorted ascending, carved
into main and side pots. -/
def calculatePots (players : List Player) : List Pot :=
  let playerBets := (players.enum.filterMap (fun x =>
    if 0 < x.2.bet_this_hand then some (x.1, x.2.bet_this_hand) else none))
  let sorted := playerBets.insertionSort betAsc
  calcPotsAux players 0 [] sorted (playerBets.map Prod.fst)

/-- Update-or-insert into `total_winnings` (a Python dict in insertion
order, modelled as an association list). -/
def addWinnings : List (ℕ × ℚ) → ℕ → ℚ → List (ℕ × ℚ)
  | [], w, x => [(w, x)]
  | (i, v) :: rest, w, x =>
    if i = w then (i, v + x) :: rest else (i, v) :: addWinnings rest w x

/-- `max(total_winnings.items(), key=lambda x: x[1])[0]`: the first key
attaining the maximal value (Python's `max` keeps the first maximum). -/
def argmaxFirst : List (ℕ × ℚ) → ℕ
  | [] => 0
  | x :: xs => (xs.foldl (fun best y => if best.2 < y.2 then y else best) x).1

/-- One iteration of the pot-award loop in `_showdown`: filter the hands
eligible for the pot, find the best score, split the pot amount evenly among
the tied winners, and log the award. -/
def awardPotsAux (handVals : List (ℕ × ℕ)) :
    GameState → List (ℕ × ℚ) → ℕ → List Pot → GameState × List (ℕ × ℚ)
  | s, winnings, _, [] => (s, winnings)
  | s, winnings, idx, pot :: rest =>
    let elig := handVals.filter (fun x => x.1 ∈ pot.eligible_players)
    if elig.isEmpty then awardPotsAux handVals s winnings (idx + 1) rest
    else
      let best := (elig.map Prod.snd).foldl max 0
      let winners := (elig.filter (fun x => x.2 = best)).map Prod.fst
      let share := pot.amount / (winners.length : ℚ)
      let players' := winners.foldl (fun ps w =>
        ps.set w (let pw := pGet ps w; { pw with chips := pw.chips + share })) s.players
      let winnings' := winners.foldl (fun acc w => addWinnings acc w share) winnings
      awardPotsAux handVals
        { s with players := players',
                 hand_history := s.hand_history ++ [.potAward idx winners pot.amount] }
        winnings' (idx + 1) rest

/-- `PokerGame._showdown`: move to street `SHOWDOWN`, collect the final bets
into the pot (without zeroing them), and either award everything to a lone
survivor or evaluate the non-folded hands and award each computed pot to its
best eligible hand(s), ties splitting evenly.  The primary `winner` is the
seat with the largest cumulative award (first such seat). -/
def showdownFn (s : GameState) : GameState :=
  let s1 : GameState := { s with street := Street.showdown,
                                 pot := s.pot + (s.players.map (fun p => p.bet_this_round)).sum }
  let active := s1.players.enum.filter (fun x => ¬ x.2.is_folded)
  match active with
  | [(w, _)] =>
    let pw := pGet s1.players w
    { s1 with winner := some w,
              players := s1.players.set w { pw with chips := pw.chips + s1.pot },
              hand_history := s1.hand_history ++ [.winsByFold w s1.pot],
              is_hand_over := true }
  | _ =>
    let pots := calculatePots s1.players
    let handVals := active.map (fun x => (x.1, evaluate x.2.hand s1.community_cards))
    let s2 := { s1 with hand_history := s1.hand_history ++ [.showdownLine]
                  ++ handVals.map (fun x => HistEvent.showdownHand x.1 (x.2 >>> 20)) }
    let r := awardPotsAux handVals s2 [] 0 pots
    { r.1 with winner := if r.2.isEmpty then r.1.winner else some (argmaxFirst r.2),
               is_hand_over := true }

/-- The bet-collection prologue of `_advance_street`: move every
`bet_this_round` into the pot, reset the round-local player fields, and reset
`current_bet`, `min_raise`, `last_raise_amount` and the action counter. -/
def collectAndReset (s : GameState) : GameState :=
  { s with pot := s.pot + (s.players.map (fun p => p.bet_this_round)).sum,
           players := s.players.map resetForNewRound,
           current_bet := 0, min_raise := s.big_blind,
           last_raise_amount := s.big_blind, actions_this_round := 0 }

/-- The actor reset of `_advance_street` for a new street: start at the seat
after the button and take the first non-folded, non-all-in seat (staying at
the start seat when none is found, as the source does). -/
def resetActorForStreet (s : GameState) : GameState :=
  let n := s.players.length
  let start := (s.button_position + 1) % n
  match findEligibleFrom s.players start n with
  | some idx => { s with current_actor := (idx : ℤ) }
  | none => { s with current_actor := (start : ℤ) }

/-- `PokerGame._advance_street` with explicit recursion fuel: collect the
bets, deal the next street (one burn card each), reset the actor, and keep
auto-advancing while at most one non-folded seat still has chips; at the
river, run the showdown instead.  Each recursive call advances the street,
so the recursion depth is at most 3 and fuel 4 is always sufficient. -/
def advanceStreetAux : ℕ → GameState → Except String GameState
  | 0, _ => .error "street recursion fuel exhausted"
  | fuel + 1, s =>
    let sC := collectAndReset s
    match s.street with
    | .preflop =>
      match deckDeal 1 sC.deck with
      | .error e => .error e
      | .ok (_, d1) =>
        match deckDeal 3 d1 with
        | .error e => .error e
        | .ok (flopCards, d2) =>
          continueOrAuto fuel
            { sC with deck := d2, community_cards := sC.community_cards ++ flopCards,
                      street := .flop,
                      hand_history := sC.hand_history ++ [.flopDealt flopCards] }
    | .flop =>
      match deckDeal 1 sC.deck with
      | .error e => .error e
      | .ok (_, d1) =>
        match deckDeal 1 d1 with
        | .error e => .error e
        | .ok (cs, d2) =>
          continueOrAuto fuel
            { sC with deck := d2, community_cards := sC.community_cards ++ cs,
                      street := .turn,
                      hand_history := sC.hand_history ++ [.turnDealt (cs.headD default)] }
    | .turn =>
      match deckDeal 1 sC.deck with
      | .error e => .error e
      | .ok (_, d1) =>
        match deckDeal 1 d1 with
        | .error e => .error e
        | .ok (cs, d2) =>
          continueOrAuto fuel
            { sC with deck := d2, community_cards := sC.community_cards ++ cs,
                      street := .river,
                      hand_history := sC.hand_history ++ [.riverDealt (cs.headD default)] }
    | .river => .ok (showdownFn sC)
    | .showdown => .ok sC
where
  /-- Shared epilogue for the three dealing branches: reset the actor and
  auto-advance when appropriate. -/
  continueOrAuto (fuel : ℕ) (s2 : GameState) : Except String GameState :=
    let s3 := resetActorForStreet s2
    if ¬ s3.is_hand_over ∧ shouldAutoAdvance s3 then advanceStreetAux fuel s3 else .ok s3

/-- `PokerGame._advance_street` (fuel 4 covers the street-bounded recursion). -/
def advanceStreet (s : GameState) : Except String GameState := advanceStreetAux 4 s

/-- The BB-option consumption at the top of `process_action`: preflop with a
pending option, the option is consumed when the acting seat is the BB
(`(button+2) % n` with more than two players, else `1 - button`). -/
def consumeBBOption (s : GameState) (pid : ℕ) : GameState :=
  if s.street = .preflop ∧ s.bb_has_option then
    let n := s.players.length
    let bbPos : ℤ := if 2 < n then ((s.button_position : ℤ) + 2) % (n : ℤ)
                     else 1 - (s.button_position : ℤ)
    if (pid : ℤ) = bbPos then { s with bb_has_option := false } else s
  else s

/-- The `FOLD` branch of `process_action` (before the hand-over check). -/
def applyFold (s : GameState) (pid : ℕ) : GameState :=
  let p := pGet s.players pid
  { s with players := s.players.set pid { p with pstate := .folded, last_action := some .foldedL },
           hand_history := s.hand_history ++ [.playerFolds pid] }

/-- The `CHECK` branch of `process_action`. -/
def applyCheck (s : GameState) (pid : ℕ) : GameState :=
  let p := pGet s.players pid
  { s with players := s.players.set pid { p with last_action := some .checkL },
           hand_history := s.hand_history ++ [.playerChecks pid] }

/-- The `CALL` branch of `process_action`: bet the difference to the current
bet through `place_bet`. -/
def applyCall (s : GameState) (pid : ℕ) : GameState :=
  let p := pGet s.players pid
  let amountToCall := s.current_bet - p.bet_this_round
  let r := placeBet p amountToCall
  { s with players := s.players.set pid { r.1 with last_action := some (.callA r.2) },
           hand_history := s.hand_history ++ [.playerCalls pid r.2] }

/-- The `BET` branch of `process_action`: place the bet, set `current_bet` to
the player's new round bet and `min_raise`/`last_raise_amount` to the
requested amount. -/
def applyBet (s : GameState) (pid : ℕ) (a : Action) : GameState :=
  let p := pGet s.players pid
  let r := placeBet p a.amount
  { s with players := s.players.set pid { r.1 with last_action := some (.betA r.2) },
           current_bet := r.1.bet_this_round,
           last_raise_amount := a.amount, min_raise := a.amount,
           hand_history := s.hand_history ++ [.playerBets pid r.2] }

/-- The `RAISE` branch of `process_action`: add the difference to the
requested total, set `current_bet` to the new round bet and
`min_raise`/`last_raise_amount` to the realised increment. -/
def applyRaiseTo (s : GameState) (pid : ℕ) (a : Action) : GameState :=
  let p := pGet s.players pid
  let amountToAdd := a.amount - p.bet_this_round
  let r := placeBet p amountToAdd
  let newBet := r.1.bet_this_round
  let lr := newBet - s.current_bet
  { s with players := s.players.set pid { r.1 with last_action := some (.raiseToA newBet) },
           current_bet := newBet, last_raise_amount := lr, min_raise := lr,
           hand_history := s.hand_history ++ [.playerRaises pid newBet] }

/-- The `ALL_IN` branch of `process_action`: bet the whole stack; when the
new round bet exceeds the current bet it becomes the current bet, and
`min_raise` is updated only when the increment is at least the previous
`min_raise` (TDA Rule 47: a short all-in does not reset the minimum raise). -/
def applyAllIn (s : GameState) (pid : ℕ) : GameState :=
  let p := pGet s.players pid
  let r := placeBet p p.chips
  let s' := { s with players := s.players.set pid { r.1 with last_action := some (.allInA r.2) },
                     hand_history := s.hand_history ++ [.playerAllIn pid r.2] }
  if s.current_bet < r.1.bet_this_round then
    let raiseAmount := r.1.bet_this_round - s.current_bet
    if s.min_raise ≤ raiseAmount then
      { s' with current_bet := r.1.bet_this_round,
                last_raise_amount := raiseAmount, min_raise := raiseAmount }
    else { s' with current_bet := r.1.bet_this_round }
  else s'

/-- The common epilogue of `process_action`: advance the street when the
betting round is over, otherwise advance the actor. -/
def finishAction (s : GameState) : Except String (GameState × Bool × Option String) :=
  if isBettingRoundOver s then
    match advanceStreet s with
    | .error e => .error e
    | .ok s' => .ok (s', true, none)
  else .ok (advanceActor s, true, none)

/-- `PokerGame.process_action(player_id, action)`: reject when `player_id`
is not the current actor or the validator rejects (state unchanged in both
cases); otherwise apply the action, end the hand at once when a fold leaves
a single seat, and close or continue the betting round. -/
def processAction (s : GameState) (pid : ℕ) (a : Action) :
    Except String (GameState × Bool × Option String) :=
  if (pid : ℤ) ≠ s.current_actor then .ok (s, false, some "Not your turn") else
  let p := pGet s.players pid
  let v := validateAction a p.chips s.current_bet p.bet_this_round s.min_raise (getPotSize s)
  if v.1 = false then .ok (s, false, v.2) else
  let s1 := consumeBBOption { s with actions_this_round := s.actions_this_round + 1 } pid
  match a.action_type with
  | .fold =>
    let s2 := checkHandOver (applyFold s1 pid)
    if s2.is_hand_over then .ok ({ s2 with current_actor := -1 }, true, none)
    else finishAction s2
  | .check => finishAction (applyCheck s1 pid)
  | .call => finishAction (applyCall s1 pid)
  | .bet => finishAction (applyBet s1 pid a)
  | .raiseTo => finishAction (applyRaiseTo s1 pid a)
  | .allIn => finishAction (applyAllIn s1 pid)

/-- The small-blind position as computed in `get_legal_actions`: the button
heads-up, the seat after the button otherwise. -/
def sbPosOf (s : GameState) : ℕ :=
  if s.players.length = 2 then s.button_position
  else (s.button_position + 1) % s.players.length

/-- `PokerGame.get_legal_actions(player_id)`: the validator's legal kinds,
with `RAISE` removed when facing a short all-in raise (`0 < amount_to_call <
min_raise`) unless the seat is the preflop small blind (TDA Rule 47). -/
def gameLegalActions (s : GameState) (pid : ℕ) : List ActionType :=
  let p := pGet s.players pid
  let la := legalActionKinds p.chips s.current_bet p.bet_this_round s.min_raise s.big_blind
  let amountToCall := s.current_bet - p.bet_this_round
  let isPreflopSB := s.street = .preflop ∧ pid = sbPosOf s
  if ¬ isPreflopSB ∧ 0 < amountToCall ∧ amountToCall < s.min_raise then
    la.erase .raiseTo
  else la

/-! ### Specification-side definitions and scenario inputs -/

/-- The distinct positive contribution levels in ascending order, following
the spec: "Sort distinct contribution levels ascending." -/
def specLevels (contribs : List ℚ) : List ℚ :=
  ((contribs.filter (fun c => 0 < c)).dedup).insertionSort (· ≤ ·)

/-- Spec-side pot construction ("For each level, the pot increment equals
`(level - previous_level) * (number of seats whose contribution >= level)`;
this increment's eligible winners are the subset of those contributing seats
that have not folded"), written from the spec's words for comparison against
`calculatePots`.  `contribs` lists each seat's (total contribution, folded?). -/
def specPotsFrom (contribs : List (ℚ × Bool)) : ℚ → List ℚ → List Pot
  | _, [] => []
  | prev, L :: ls =>
    ⟨(L - prev) * ((contribs.filter (fun c => L ≤ c.1)).length : ℚ),
     (List.range contribs.length).filter
       (fun i => L ≤ (contribs.getD i (0, true)).1 ∧ (contribs.getD i (0, true)).2 = false)⟩
      :: specPotsFrom contribs L ls

/-- The side-pot partition described by the spec, over the seats' total
contributions (folded seats' money included). -/
def specSidePots (contribs : List (ℚ × Bool)) : List Pot :=
  specPotsFrom contribs 0 (specLevels (contribs.map Prod.fst))

/-- The conserved quantity of the chip-conservation claim:
`pot_accumulator + Σ (player.chips + player.bet_this_round)`. -/
def moneySum (s : GameState) : ℚ :=
  s.pot + (s.players.map (fun p => p.chips + p.bet_this_round)).sum

/-- The sum of the starting stacks of a hand. -/
def startingTotal (seats : List (ℕ × ℚ)) : ℚ := (seats.map Prod.snd).sum

/-- The inputs of one hand: blinds, seats, button and the shuffled deck. -/
structure HandConfig where
  sb : ℚ
  bb : ℚ
  seats : List (ℕ × ℚ)
  button : ℕ
  deckOrder : List Card

/-- States reachable from `start_hand` through accepted `process_action`
calls (the internal street advances and showdown settlement happen inside
`processAction`). -/
inductive Reachable (cfg : HandConfig) : GameState → Prop where
  | start (s : GameState) :
      startHand cfg.sb cfg.bb cfg.seats cfg.button cfg.deckOrder = .ok s → Reachable cfg s
  | step (s s' : GameState) (pid : ℕ) (a : Action) (r : Option String) :
      Reachable cfg s → processAction s pid a = .ok (s', true, r) → Reachable cfg s'

/-- Whether a `process_action` result reports acceptance. -/
def acceptedOf (r : Except String (GameState × Bool × Option String)) : Bool :=
  match r with
  | .ok x => x.2.1
  | .error _ => false

/-- Run one action, continuing only when it is accepted. -/
def stepOk (r : Except String GameState) (pa : ℕ × Action) : Except String GameState :=
  match r with
  | .error e => .error e
  | .ok s =>
    match processAction s pa.1 pa.2 with
    | .error e => .error e
    | .ok (s', true, _) => .ok s'
    | .ok (_, false, _) => .error "action rejected"

/-- Run a hand from `start_hand` through a list of actions, requiring every
action to be accepted. -/
def runHand (cfg : HandConfig) (acts : List (ℕ × Action)) : Except String GameState :=
  acts.foldl stepOk (startHand cfg.sb cfg.bb cfg.seats cfg.button cfg.deckOrder)

/-- The state of a successful run (`default` on error, never used on the
runs appearing in the theorems). -/
def stateOf (r : Except String GameState) : GameState :=
  match r with
  | .ok s => s
  | .error _ => default

/-- Scenario for the chip-conservation counterexample: heads-up, stacks
100/100, blinds 10/20, button 0, identity-order deck. -/
def cfgC1 : HandConfig := ⟨10, 20, [(0, 100), (1, 100)], 0, fullDeck⟩

/-- The state after the small blind folds immediately: the hand is over and
the winner was paid, but the pot accumulator is not cleared. -/
def c1FoldState : GameState := stateOf (runHand cfgC1 [(0, ⟨.fold, 0⟩)])

/-- Scenario for the legality/validation-agreement claim: heads-up, stacks
2000/600, blinds 10/20, button 0.  Preflop: SB calls, BB checks; flop: BB
checks, SB bets 500, BB goes all-in for 580 total (a short all-in raise of
80 on top of the 500 bet, below the min raise of 500). -/
def cfgC2 : HandConfig := ⟨10, 20, [(0, 2000), (1, 600)], 0, fullDeck⟩

/-- The action list of the short-all-in scenario. -/
def c2Acts : List (ℕ × Action) :=
  [(0, ⟨.call, 0⟩), (1, ⟨.check, 0⟩), (1, ⟨.check, 0⟩), (0, ⟨.bet, 500⟩), (1, ⟨.allIn, 0⟩)]

/-- The state in which seat 0 faces the short all-in raise (500 bet against
a 580 total all-in). -/
def c2State : GameState := stateOf (runHand cfgC2 c2Acts)

/-- A directly constructed state in which seat 0 (the original bettor, 500
already in) faces a short all-in raise to 580 while `min_raise` is 500, on
the flop (the spec's own re-opening-rule scenario). -/
def c4State : GameState :=
  { small_blind := 10, big_blind := 20,
    players :=
      [{ player_id := 0, chips := 1480, hand := [⟨.spades, .rA⟩, ⟨.hearts, .rK⟩],
         pstate := .active, bet_this_round := 500, bet_this_hand := 520,
         last_action := some (.betA 500) },
       { player_id := 1, chips := 0, hand := [⟨.diamonds, .r7⟩, ⟨.clubs, .r2⟩],
         pstate := .allIn, bet_this_round := 580, bet_this_hand := 600,
         last_action := some (.allInA 560) }],
    deck := fullDeck.drop 12, community_cards := [⟨.spades, .r5⟩, ⟨.hearts, .r9⟩, ⟨.diamonds, .rJ⟩],
    street := .flop, pot := 40, current_bet := 580, min_raise := 500,
    last_raise_amount := 500, actions_this_round := 3, bb_has_option := false,
    button_position := 0, hand_number := 1, is_hand_over := false, winner := none,
    hand_history := [], current_actor := 0 }

/-- Players whose hand-long contributions are [1000, 500, 200], none folded
(the spec's side-pot example). -/
def c3Players : List Player :=
  [{ player_id := 0, chips := 0, hand := [], pstate := .allIn,
     bet_this_round := 0, bet_this_hand := 1000, last_action := none },
   { player_id := 1, chips := 0, hand := [], pstate := .allIn,
     bet_this_round := 0, bet_this_hand := 500, last_action := none },
   { player_id := 2, chips := 0, hand := [], pstate := .allIn,
     bet_this_round := 0, bet_this_hand := 200, last_action := none }]

/-- Players where the single highest contributor (seat 0, 100) folded while
two seats contributed 50 each: the dead money above 50 has no eligible
winner and is merged into the previous pot. -/
def c3DeadTopPlayers : List Player :=
  [{ player_id := 0, chips := 0, hand := [], pstate := .folded,
     bet_this_round := 0, bet_this_hand := 100, last_action := none },
   { player_id := 1, chips := 10, hand := [], pstate := .active,
     bet_this_round := 0, bet_this_hand := 50, last_action := none },
   { player_id := 2, chips := 10, hand := [], pstate := .active,
     bet_this_round := 0, bet_this_hand := 50, last_action := none }]

/-- Whether some seat attaining the maximal hand-long contribution has not
folded (true at every real showdown; the hypothesis of the amended side-pot
claim). -/
def maxContributorUnfolded (players : List Player) : Prop :=
  players = [] ∨
    ∃ p ∈ players, p.is_folded = false ∧ ∀ q ∈ players, q.bet_this_hand ≤ p.bet_this_hand

/-- A hand with bounded rank values: the no-straight hypothesis of the
wheel claim, phrased over the rank multiset (`ranks` contains no five
consecutive values topped by a rank of at least 6). -/
def noNormalStraight (ranks : List ℕ) : Prop :=
  ∀ v ∈ ranks, ¬ (6 ≤ v ∧ (v - 1) ∈ ranks ∧ (v - 2) ∈ ranks ∧ (v - 3) ∈ ranks ∧ (v - 4) ∈ ranks)

/-- Wheel membership: ranks contain A, 5, 4, 3, 2. -/
def hasWheelRanks (ranks : List ℕ) : Prop :=
  14 ∈ ranks ∧ 5 ∈ ranks ∧ 4 ∈ ranks ∧ 3 ∈ ranks ∧ 2 ∈ ranks

/-- Six-high-straight membership: ranks contain 6, 5, 4, 3, 2. -/
def hasSixHighRanks (ranks : List ℕ) : Prop :=
  6 ∈ ranks ∧ 5 ∈ ranks ∧ 4 ∈ ranks ∧ 3 ∈ ranks ∧ 2 ∈ ranks

/-- Concrete wheel-straight hand (no flush, best hand A-2-3-4-5). -/
def wheelHole : List Card := [⟨.spades, .rA⟩, ⟨.hearts, .r2⟩]
def wheelCommunity : List Card :=
  [⟨.diamonds, .r3⟩, ⟨.clubs, .r4⟩, ⟨.spades, .r5⟩, ⟨.hearts, .r9⟩, ⟨.diamonds, .rJ⟩]

/-- Concrete 6-high-straight hand (no flush). -/
def sixHole : List Card := [⟨.spades, .r2⟩, ⟨.hearts, .r3⟩]
def sixCommunity : List Card :=
  [⟨.diamonds, .r4⟩, ⟨.clubs, .r5⟩, ⟨.spades, .r6⟩, ⟨.hearts, .r9⟩, ⟨.diamonds, .rJ⟩]

/-- Concrete wheel straight flush. -/
def wheelSFHole : List Card := [⟨.spades, .rA⟩, ⟨.spades, .r2⟩]
def wheelSFCommunity : List Card :=
  [⟨.spades, .r3⟩, ⟨.spades, .r4⟩, ⟨.spades, .r5⟩, ⟨.hearts, .r9⟩, ⟨.diamonds, .rJ⟩]

/-- Concrete 6-high straight flush. -/
def sixSFHole : List Card := [⟨.hearts, .r2⟩, ⟨.hearts, .r3⟩]
def sixSFCommunity : List Card :=
  [⟨.hearts, .r4⟩, ⟨.hearts, .r5⟩, ⟨.hearts, .r6⟩, ⟨.spades, .r9⟩, ⟨.diamonds, .rJ⟩]

/-- Concrete flush hand (category 5, above any straight). -/
def flushHole : List Card := [⟨.spades, .rA⟩, ⟨.spades, .rK⟩]
def flushCommunity : List Card :=
  [⟨.spades, .r9⟩, ⟨.spades, .r5⟩, ⟨.spades, .r2⟩, ⟨.hearts, .r3⟩, ⟨.diamonds, .r7⟩]

/-- The state projection of a `process_action` result. -/
def projState (r : Except String (GameState × Bool × Option String)) : Option GameState :=
  match r with
  | .ok x => some x.1
  | .error _ => none

/-- The seats' (total contribution, folded?) assignment of a player list, as
consumed by the spec-side pot computation. -/
def playersContribs (players : List Player) : List (ℚ × Bool) :=
  players.map (fun p => (p.bet_this_hand, p.is_folded))

/-- The rank list `_get_score` examines in its straight branch: the ranks of
the processed cards in descending sorted order. -/
def processRanks (hole community : List Card) : List ℕ :=
  ((processCards (hole ++ community)).insertionSort rankDesc).map Prod.fst

/-- The distinct levels above `prev` of an ascending bet list (proof-side
description of the levels `_calculate_pots` still has to process). -/
def levelsAbove : ℚ → List ℚ → List ℚ
  | _, [] => []
  | prev, b :: bs => if prev < b then b :: levelsAbove b bs else levelsAbove prev bs

/-- The state in which seat 1 (stack 80 behind, 500 bet to match) is about
to make a short all-in (to 580 total against `min_raise = 500`): used to
exercise the all-in branch's `min_raise` preservation. -/
def c4PreState : GameState :=
  { small_blind := 10, big_blind := 20,
    players :=
      [{ player_id := 0, chips := 1480, hand := [⟨.spades, .rA⟩, ⟨.hearts, .rK⟩],
         pstate := .active, bet_this_round := 500, bet_this_hand := 520,
         last_action := some (.betA 500) },
       { player_id := 1, chips := 80, hand := [⟨.diamonds, .r7⟩, ⟨.clubs, .r2⟩],
         pstate := .active, bet_this_round := 500, bet_this_hand := 520,
         last_action := some (.callA 500) }],
    deck := fullDeck.drop 12, community_cards := [⟨.spades, .r5⟩, ⟨.hearts, .r9⟩, ⟨.diamonds, .rJ⟩],
    street := .flop, pot := 40, current_bet := 500, min_raise := 500,
    last_raise_amount := 500, actions_this_round := 2, bb_has_option := false,
    button_position := 0, hand_number := 1, is_hand_over := false, winner := none,
    hand_history := [], current_actor := 1 }

/-- The preflop state of the short-all-in scenario right after `start_hand`
(seat 0 is the heads-up small blind / button). -/
def c2BaseState : GameState := stateOf (runHand cfgC2 [])

/-! ## Theorems -/

/-- A successful run equals `.ok` of its extracted state. -/
theorem ok_of_isOk {r : Except String GameState} (h : r.isOk = true) : r = .ok (stateOf r) := by
  cases r with
  | ok s => rfl
  | error e => simp [Except.isOk, Except.toBool] at h

/-- `finishAction` always reports acceptance. -/
theorem finishAction_true {s s' : GameState} {b : Bool} {r : Option String}
    (h : finishAction s = .ok (s', b, r)) : b = true := by
  unfold finishAction at h
  split at h
  · cases hA : advanceStreet s with
    | error e => rw [hA] at h; exact absurd h (by simp)
    | ok s2 =>
      rw [hA] at h
      simp only [Except.ok.injEq, Prod.mk.injEq] at h
      exact h.2.1.symm
  · simp only [Except.ok.injEq, Prod.mk.injEq] at h
    exact h.2.1.symm

/-- C5: Rejection atomicity — whenever `process_action` returns
`accepted = false` (wrong actor or failed validation), the returned state is
exactly the state it was given: every component of the engine state is
unchanged. -/
theorem C5_rejection_atomicity (s : GameState) (pid : ℕ) (a : Action)
    (s' : GameState) (r : Option String)
    (h : processAction s pid a = .ok (s', false, r)) : s' = s := by
  simp only [processAction] at h
  repeat' split at h
  all_goals first
    | (simp only [Except.ok.injEq, Prod.mk.injEq] at h; exact h.1.symm)
    | exact absurd (finishAction_true h) (by simp)
    | (simp only [Except.ok.injEq, Prod.mk.injEq] at h; exact absurd h.2.1 (by simp))

/-- C5 witness: a wrong-actor rejection at a concrete state returns the very
same state. -/
theorem C5_rejection_atomicity_witness :
    projState (processAction c4State 1 ⟨ActionType.check, 0⟩) = some c4State := by
  have heq : processAction c4State 1 ⟨ActionType.check, 0⟩ =
      .ok (c4State, false, some "Not your turn") := by
    norm_num [processAction, c4State]
  have hs := C5_rejection_atomicity c4State 1 ⟨ActionType.check, 0⟩ _ _ heq
  rw [heq, hs]
  rfl

/-- C10: `place_bet` clamps the wager to `min(amount, chips)`, so chips never
go negative, and the state becomes `AllIn` exactly when the chips reach 0
(`post_blind` is the same operation). -/
theorem C10_placeBet_clamps (p : Player) (amount : ℚ) :
    (placeBet p amount).2 = min amount p.chips ∧
    (placeBet p amount).1.chips = p.chips - min amount p.chips ∧
    0 ≤ (placeBet p amount).1.chips ∧
    ((placeBet p amount).1.pstate = .allIn ↔
      (placeBet p amount).1.chips = 0 ∨ p.pstate = .allIn) ∧
    (placeBet p amount).1.bet_this_round = p.bet_this_round + min amount p.chips ∧
    (placeBet p amount).1.bet_this_hand = p.bet_this_hand + min amount p.chips ∧
    postBlind p amount = placeBet p amount := by
  have hmin : min amount p.chips ≤ p.chips := min_le_right _ _
  rcases le_or_lt (p.chips - min amount p.chips) 0 with hc | hc
  · have hz : p.chips - min amount p.chips = 0 := le_antisymm hc (by linarith)
    have hpb : placeBet p amount =
        ({ p with chips := p.chips - min amount p.chips,
                  bet_this_round := p.bet_this_round + min amount p.chips,
                  bet_this_hand := p.bet_this_hand + min amount p.chips,
                  pstate := .allIn }, min amount p.chips) := by
      simp [placeBet, hc]
    refine ⟨by simp [hpb], by simp [hpb], by simp [hpb, hz], ?_, by simp [hpb], by simp [hpb],
      rfl⟩
    simp [hpb, hz]
  · have hz : ¬ (p.chips - min amount p.chips = 0) := ne_of_gt hc
    have hpb : placeBet p amount =
        ({ p with chips := p.chips - min amount p.chips,
                  bet_this_round := p.bet_this_round + min amount p.chips,
                  bet_this_hand := p.bet_this_hand + min amount p.chips }, min amount p.chips) := by
      simp [placeBet, not_le.mpr hc]
    refine ⟨by simp [hpb], by simp [hpb], by simp [hpb]; try linarith, ?_, by simp [hpb],
      by simp [hpb], rfl⟩
    simp [hpb, hz]

/-- C4 counterexample: facing a short all-in raise (bet 500, all-in to 580,
min raise 500), the legal set excludes Raise but is NOT "only Call/Fold": it
also contains All-in (through which more chips than a call can be wagered),
so the claim's "it may only call or fold" is false as stated. -/
theorem C4_counterexample :
    ActionType.allIn ∈ gameLegalActions c4State 0 ∧
    gameLegalActions c4State 0 ≠ [ActionType.fold, ActionType.call] ∧
    gameLegalActions c4State 0 = [ActionType.fold, ActionType.call, ActionType.allIn] := by
  norm_num +decide [gameLegalActions, legalActionKinds, sbPosOf, pGet, c4State, List.erase_cons]

/-- The validator's legal-action list never repeats a kind. -/
theorem legalActionKinds_nodup (chips cb btr mr bb : ℚ) :
    (legalActionKinds chips cb btr mr bb).Nodup := by
  unfold legalActionKinds
  dsimp only
  split_ifs <;> decide

/-- Membership characterisation of the validator's legal-action list. -/
theorem legalActionKinds_mem (chips cb btr mr bb : ℚ) (k : ActionType) :
    k ∈ legalActionKinds chips cb btr mr bb ↔
      k = ActionType.fold ∨
      (k = ActionType.check ∧ cb - btr = 0) ∨
      (k = ActionType.call ∧ cb - btr ≠ 0 ∧ cb - btr ≤ chips) ∨
      (k = ActionType.bet ∧ cb - btr < chips ∧ cb = 0) ∨
      (k = ActionType.raiseTo ∧ cb - btr < chips ∧ cb ≠ 0 ∧ mr ≤ chips - (cb - btr)) ∨
      (k = ActionType.allIn ∧ 0 < chips) := by
  unfold legalActionKinds
  dsimp only
  split_ifs <;> cases k <;> simp_all

/-- C4 (amended): against a short all-in raise (`0 < amount_to_call <
min_raise`) a seat that is not the preflop small blind loses the Raise
option and keeps only Fold, Call and All-in; the all-in branch leaves
`min_raise` unchanged when the all-in increment is below it; and the preflop
small blind is the single exception, keeping the validator's unfiltered
action set. -/
theorem C4_short_allin_no_reopen (s : GameState) (pid : ℕ) :
    (¬ (s.street = .preflop ∧ pid = sbPosOf s) →
      0 < s.current_bet - (pGet s.players pid).bet_this_round →
      s.current_bet - (pGet s.players pid).bet_this_round < s.min_raise →
      (ActionType.raiseTo ∉ gameLegalActions s pid ∧
        (0 ≤ (pGet s.players pid).bet_this_round →
          ∀ k ∈ gameLegalActions s pid,
            k = ActionType.fold ∨ k = ActionType.call ∨ k = ActionType.allIn))) ∧
    ((pGet s.players pid).bet_this_round + (pGet s.players pid).chips - s.current_bet <
        s.min_raise →
      (applyAllIn s pid).min_raise = s.min_raise) ∧
    (s.street = .preflop → pid = sbPosOf s →
      gameLegalActions s pid = legalActionKinds (pGet s.players pid).chips s.current_bet
        (pGet s.players pid).bet_this_round s.min_raise s.big_blind) := by
  refine ⟨?_, ?_, ?_⟩
  · intro hnsb h1 h2
    have hcond : ¬ (s.street = .preflop ∧ pid = sbPosOf s) ∧
        0 < s.current_bet - (pGet s.players pid).bet_this_round ∧
        s.current_bet - (pGet s.players pid).bet_this_round < s.min_raise := ⟨hnsb, h1, h2⟩
    have hnodup := legalActionKinds_nodup (pGet s.players pid).chips s.current_bet
      (pGet s.players pid).bet_this_round s.min_raise s.big_blind
    constructor
    · simp only [gameLegalActions, if_pos hcond]
      intro hm
      exact absurd ((hnodup.mem_erase_iff).mp hm).1 (by simp)
    · intro hbr k hk
      simp only [gameLegalActions, if_pos hcond] at hk
      have hcb : 0 < s.current_bet := by linarith
      have hkne : k ≠ ActionType.raiseTo := ((hnodup.mem_erase_iff).mp hk).1
      have hkmem := List.mem_of_mem_erase hk
      rw [legalActionKinds_mem] at hkmem
      rcases hkmem with h | ⟨hke, hch⟩ | ⟨hke, _⟩ | ⟨hke, _, hcb0⟩ | ⟨hke, _⟩ | ⟨hke, _⟩
      · exact Or.inl h
      · exact absurd hch (by linarith)
      · exact Or.inr (Or.inl hke)
      · exact absurd hcb0 (by linarith)
      · exact absurd hke hkne
      · exact Or.inr (Or.inr hke)
  · intro hshort
    have hbet : (placeBet (pGet s.players pid) (pGet s.players pid).chips).1.bet_this_round =
        (pGet s.players pid).bet_this_round + (pGet s.players pid).chips := by
      unfold placeBet
      dsimp only
      split <;> simp
    unfold applyAllIn
    dsimp only
    split
    · rw [if_neg (by rw [hbet]; intro hc; linarith)]
    · rfl
  · intro hpre hsb
    simp only [gameLegalActions]
    rw [if_neg (by simp [hpre, hsb])]

/-- C4 witness: the amended statement instantiated at the spec's own
scenario (flop, bet 500 facing an all-in to 580, `min_raise = 500`), at the
all-in just before it (seat 1, 80 behind on a 500 bet), and at the preflop
small blind of a freshly started hand. -/
theorem C4_short_allin_no_reopen_witness :
    ActionType.raiseTo ∉ gameLegalActions c4State 0 ∧
    (applyAllIn c4PreState 1).min_raise = c4PreState.min_raise ∧
    gameLegalActions c2BaseState 0 = legalActionKinds (pGet c2BaseState.players 0).chips
      c2BaseState.current_bet (pGet c2BaseState.players 0).bet_this_round c2BaseState.min_raise
      c2BaseState.big_blind := by
  refine ⟨((C4_short_allin_no_reopen c4State 0).1 (by norm_num +decide [c4State, sbPosOf])
      (by norm_num [c4State, pGet]) (by norm_num [c4State, pGet])).1,
    (C4_short_allin_no_reopen c4PreState 1).2.1 (by norm_num [c4PreState, pGet]),
    (C4_short_allin_no_reopen c2BaseState 0).2.2 ?_ ?_⟩
  · norm_num +decide [c2BaseState, stateOf, runHand, startHand, cfgC2, dealHands, deckDeal,
      postBlind, placeBet, pGet, fullDeck, allSuits, allRanks, min_def]
  · norm_num +decide [c2BaseState, stateOf, runHand, startHand, cfgC2, dealHands, deckDeal,
      postBlind, placeBet, pGet, fullDeck, allSuits, allRanks, min_def, sbPosOf]

/-- Dealing hole cards succeeds exactly when the deck holds two cards per
player. -/
theorem dealHands_isOk : ∀ (ps : List Player) (deck : List Card),
    (dealHands ps deck).isOk = true ↔ 2 * ps.length ≤ deck.length := by
  intro ps
  induction ps with
  | nil => intro deck; simp [dealHands, Except.isOk, Except.toBool]
  | cons p rest ih =>
    intro deck
    unfold dealHands deckDeal
    by_cases hlen : deck.length < 2
    · rw [if_pos hlen]
      simp only [Except.isOk, Except.toBool, List.length_cons]
      constructor
      · intro h; exact absurd h (by simp)
      · intro h; omega
    · rw [if_neg hlen]
      dsimp only
      have hdrop : (deck.drop 2).length = deck.length - 2 := by simp
      have hiff := ih (deck.drop 2)
      rw [hdrop] at hiff
      cases hdh : dealHands rest (deck.drop 2) with
      | error e =>
        rw [hdh] at hiff
        simp only [Except.isOk, Except.toBool, List.length_cons] at hiff ⊢
        constructor
        · intro h; exact absurd h (by simp)
        · intro h
          have h2 : 2 * rest.length ≤ deck.length - 2 := by omega
          exact absurd (hiff.mpr h2) (by simp)
      | ok pr =>
        rw [hdh] at hiff
        simp only [Except.isOk, Except.toBool, List.length_cons] at hiff ⊢
        constructor
        · intro _
          have h2 : 2 * rest.length ≤ deck.length - 2 := hiff.mp trivial
          omega
        · intro _
          trivial

/-- Successful dealing: every player gets exactly two cards off the top,
only the `hand` field changes, and the deck loses `2 * count` cards. -/
theorem dealHands_spec : ∀ (ps : List Player) (deck : List Card),
    2 * ps.length ≤ deck.length →
    ∃ ps', dealHands ps deck = .ok (ps', deck.drop (2 * ps.length)) ∧
      ps'.length = ps.length ∧
      (∀ p' ∈ ps', p'.hand.length = 2) ∧
      (∀ i, i < ps.length → ∃ cs : List Card, pGet ps' i = { pGet ps i with hand := cs }) := by
  intro ps
  induction ps with
  | nil =>
    intro deck _
    exact ⟨[], by simp [dealHands], rfl, by simp, by simp⟩
  | cons p rest ih =>
    intro deck hlen
    simp only [List.length_cons] at hlen
    have h2 : 2 ≤ deck.length := by omega
    have hdrop : (deck.drop 2).length = deck.length - 2 := by simp
    obtain ⟨rest', hdh, hrl, hhands, hpt⟩ := ih (deck.drop 2) (by omega)
    refine ⟨{ p with hand := deck.take 2 } :: rest', ?_, by simp [hrl], ?_, ?_⟩
    · unfold dealHands deckDeal
      rw [if_neg (by omega)]
      dsimp only
      rw [hdh]
      have : (deck.drop 2).drop (2 * rest.length) = deck.drop (2 * (rest.length + 1)) := by
        rw [List.drop_drop]
        congr 1
        ring
      rw [this]
      rfl
    · intro p' hp'
      rw [List.mem_cons] at hp'
      rcases hp' with h | h
      · subst h
        simp [List.length_take]
        omega
      · exact hhands _ h
    · intro i hi
      cases i with
      | zero => exact ⟨deck.take 2, rfl⟩
      | succ j =>
        simp only [List.length_cons] at hi
        obtain ⟨cs, hcs⟩ := hpt j (by omega)
        exact ⟨cs, by simpa [pGet] using hcs⟩

/-- C6 counterexample: `start_hand` accepts a seat with a negative starting
chip count (the claim says it must fail with a configuration error). -/
theorem C6_counterexample :
    (startHand 10 20 [(0, -50), (1, 100)] 0 fullDeck).isOk = true := by
  norm_num +decide [startHand, dealHands, deckDeal, postBlind, placeBet, pGet, fullDeck,
    allSuits, allRanks, min_def, Except.isOk, Except.toBool]

/-- `place_bet` never touches the hole cards. -/
theorem placeBet_hand (p : Player) (a : ℚ) : (placeBet p a).1.hand = p.hand := by
  unfold placeBet
  dsimp only
  split <;> rfl

/-- `place_bet` adds the clamped amount to the round bet. -/
theorem placeBet_btr (p : Player) (a : ℚ) :
    (placeBet p a).1.bet_this_round = p.bet_this_round + min a p.chips := by
  unfold placeBet
  dsimp only
  split <;> rfl

/-- `place_bet` moves the clamped amount out of the chips. -/
theorem placeBet_chips (p : Player) (a : ℚ) :
    (placeBet p a).1.chips = p.chips - min a p.chips := by
  unfold placeBet
  dsimp only
  split <;> rfl

theorem pGet_cons_zero (a : Player) (t : List Player) : pGet (a :: t) 0 = a := rfl

theorem pGet_cons_succ (a : Player) (t : List Player) (i : ℕ) :
    pGet (a :: t) (i + 1) = pGet t i := rfl

/-- Indexing after `set` at the same position. -/
theorem pGet_set_self : ∀ (l : List Player) (i : ℕ) (x : Player), i < l.length →
    pGet (l.set i x) i = x := by
  intro l
  induction l with
  | nil => intro i x h; simp at h
  | cons a t ih =>
    intro i x h
    cases i with
    | zero => rfl
    | succ j => exact ih j x (by simpa using h)

/-- Indexing after `set` at a different position. -/
theorem pGet_set_other : ∀ (l : List Player) (i j : ℕ) (x : Player), i ≠ j →
    pGet (l.set j x) i = pGet l i := by
  intro l
  induction l with
  | nil => intro i j x _; simp [List.set]
  | cons a t ih =>
    intro i j x hne
    cases j with
    | zero =>
      cases i with
      | zero => exact absurd rfl hne
      | succ k => rfl
    | succ m =>
      cases i with
      | zero => rfl
      | succ k => exact ih k m x (by omega)

/-- An in-range index yields a member of the list. -/
theorem pGet_mem : ∀ (l : List Player) (i : ℕ), i < l.length → pGet l i ∈ l := by
  intro l
  induction l with
  | nil => intro i h; simp at h
  | cons a t ih =>
    intro i h
    cases i with
    | zero => exact List.mem_cons_self _ _
    | succ j => exact List.mem_cons_of_mem _ (ih j (by simpa using h))

/-- The small- and big-blind seats differ whenever the button is in range
and there are at least two seats. -/
theorem blind_positions_ne (n button : ℕ) (h2 : 2 ≤ n) (hb : button < n) :
    (if n = 2 then button else (button + 1) % n) ≠
      (if n = 2 then (button + 1) % n else (button + 2) % n) := by
  by_cases hn : n = 2
  · subst hn
    simp only [if_pos rfl]
    interval_cases button <;> decide
  · rw [if_neg hn, if_neg hn]
    intro heq
    have h3 : 3 ≤ n := by omega
    have hdvd : (n : ℤ) ∣ ((button + 2 : ℕ) : ℤ) - ((button + 1 : ℕ) : ℤ) :=
      Nat.ModEq.dvd heq
    have h1 : ((button + 2 : ℕ) : ℤ) - ((button + 1 : ℕ) : ℤ) = 1 := by push_cast; ring
    rw [h1] at hdvd
    have := Int.le_of_dvd one_pos hdvd
    omega

/-- C6 (amended): with its regulation 52-card deck, `start_hand` fails
exactly when there are fewer than 2 seats or too many (more than 26) for two
hole cards each; negative chip counts are NOT rejected.  On success each
seat holds two hole cards, the blinds are posted (clamped to the stacks),
and `current_bet = min_raise = big blind`. -/
theorem C6_start_hand_config (sb bb : ℚ) (seats : List (ℕ × ℚ)) (button : ℕ)
    (deck : List Card) (hdeck : deck.length = 52) (hbtn : button < seats.length) :
    ((startHand sb bb seats button deck).isOk = true ↔
      2 ≤ seats.length ∧ seats.length ≤ 26) ∧
    (∀ s, startHand sb bb seats button deck = .ok s →
      (∀ p ∈ s.players, p.hand.length = 2) ∧
      s.current_bet = bb ∧ s.min_raise = bb ∧ s.pot = 0 ∧ s.is_hand_over = false ∧
      (pGet s.players (if seats.length = 2 then (button + 1) % seats.length
          else (button + 2) % seats.length)).bet_this_round =
        min bb (seats.getD (if seats.length = 2 then (button + 1) % seats.length
          else (button + 2) % seats.length) (0, 0)).2 ∧
      (pGet s.players (if seats.length = 2 then button
          else (button + 1) % seats.length)).bet_this_round =
        min sb (seats.getD (if seats.length = 2 then button
          else (button + 1) % seats.length) (0, 0)).2) := by
  have hnpos : 0 < seats.length := by omega
  unfold startHand
  by_cases hn2 : seats.length < 2
  · rw [if_pos hn2]
    constructor
    · simp only [Except.isOk, Except.toBool]
      constructor
      · intro h; exact absurd h (by simp)
      · intro h; omega
    · intro s hs; exact absurd hs (by simp)
  · rw [if_neg hn2]
    have h2n : 2 ≤ seats.length := by omega
    have hiplen : (seats.map (fun pi =>
        ({ player_id := pi.1, chips := pi.2, hand := [], pstate := .active,
           bet_this_round := 0, bet_this_hand := 0, last_action := none } : Player))).length =
        seats.length := by simp
    by_cases hle : seats.length ≤ 26
    · obtain ⟨ps', hdh, hlen', hhand, hpt⟩ := dealHands_spec (seats.map (fun pi =>
        ({ player_id := pi.1, chips := pi.2, hand := [], pstate := .active,
           bet_this_round := 0, bet_this_hand := 0, last_action := none } : Player))) deck
        (by rw [hiplen, hdeck]; omega)
      dsimp only
      rw [hdh]
      dsimp only
      rw [hiplen] at hpt hlen'
      set sbPos := (if seats.length = 2 then button else (button + 1) % seats.length) with hsbP
      set bbPos := (if seats.length = 2 then (button + 1) % seats.length
        else (button + 2) % seats.length) with hbbP
      have hsb_lt : sbPos < seats.length := by
        rw [hsbP]; split
        · exact hbtn
        · exact Nat.mod_lt _ hnpos
      have hbb_lt : bbPos < seats.length := by
        rw [hbbP]; split <;> exact Nat.mod_lt _ hnpos
      have hne : sbPos ≠ bbPos := blind_positions_ne seats.length button h2n hbtn
      have hmap : ∀ i < seats.length, pGet (seats.map (fun pi =>
          ({ player_id := pi.1, chips := pi.2, hand := [], pstate := .active,
             bet_this_round := 0, bet_this_hand := 0, last_action := none } : Player))) i =
          { player_id := (seats.getD i (0, 0)).1, chips := (seats.getD i (0, 0)).2, hand := [],
            pstate := .active, bet_this_round := 0, bet_this_hand := 0, last_action := none } := by
        intro i hi
        simp [pGet, List.getD, List.getElem?_map, List.getElem?_eq_getElem hi]
      constructor
      · simp [Except.isOk, Except.toBool, h2n, hle]
      · intro s hs
        rw [Except.ok.injEq] at hs
        subst hs
        obtain ⟨cs1, hcs1⟩ := hpt sbPos hsb_lt
        obtain ⟨cs2, hcs2⟩ := hpt bbPos hbb_lt
        have hps'sb1 : (pGet ps' sbPos).bet_this_round = 0 := by
          rw [hcs1, hmap sbPos hsb_lt]
        have hps'sb2 : (pGet ps' sbPos).chips = (seats.getD sbPos (0, 0)).2 := by
          rw [hcs1, hmap sbPos hsb_lt]
        have hps'bb1 : (pGet ps' bbPos).bet_this_round = 0 := by
          rw [hcs2, hmap bbPos hbb_lt]
        have hps'bb2 : (pGet ps' bbPos).chips = (seats.getD bbPos (0, 0)).2 := by
          rw [hcs2, hmap bbPos hbb_lt]
        refine ⟨?_, rfl, rfl, rfl, rfl, ?_, ?_⟩
        · intro p hp
          rcases List.mem_or_eq_of_mem_set hp with hp' | hp'
          · rcases List.mem_or_eq_of_mem_set hp' with hp'' | hp''
            · exact hhand p hp''
            · subst hp''
              show (postBlind (pGet ps' sbPos) sb).1.hand.length = 2
              simp only [postBlind, placeBet_hand]
              exact hhand _ (pGet_mem _ _ (by rw [hlen']; exact hsb_lt))
          · subst hp'
            show (postBlind (pGet (ps'.set sbPos
              { (postBlind (pGet ps' sbPos) sb).1 with last_action := some .postSB }) bbPos)
                bb).1.hand.length = 2
            simp only [postBlind, placeBet_hand]
            rw [pGet_set_other _ _ _ _ (Ne.symm hne)]
            exact hhand _ (pGet_mem _ _ (by rw [hlen']; exact hbb_lt))
        · rw [pGet_set_self _ _ _ (by rw [List.length_set, hlen']; exact hbb_lt)]
          show (postBlind (pGet (ps'.set sbPos
            { (postBlind (pGet ps' sbPos) sb).1 with last_action := some .postSB }) bbPos)
              bb).1.bet_this_round = _
          simp only [postBlind, placeBet_btr]
          rw [pGet_set_other _ _ _ _ (Ne.symm hne), hps'bb1, hps'bb2, zero_add]
        · rw [pGet_set_other _ _ _ _ hne,
            pGet_set_self _ _ _ (by rw [hlen']; exact hsb_lt)]
          show (postBlind (pGet ps' sbPos) sb).1.bet_this_round = _
          simp only [postBlind, placeBet_btr]
          rw [hps'sb1, hps'sb2, zero_add]
    · have hlong : ¬ ((dealHands (seats.map (fun pi =>
          ({ player_id := pi.1, chips := pi.2, hand := [], pstate := .active,
             bet_this_round := 0, bet_this_hand := 0, last_action := none } : Player))) deck).isOk
          = true) := by
        rw [dealHands_isOk, hiplen, hdeck]
        omega
      cases hdd : dealHands (seats.map (fun pi =>
          ({ player_id := pi.1, chips := pi.2, hand := [], pstate := .active,
             bet_this_round := 0, bet_this_hand := 0, last_action := none } : Player))) deck with
      | ok pr => exact absurd (by rw [hdd]; rfl) hlong
      | error e =>
        dsimp only
        rw [hdd]
        constructor
        · simp only [Except.isOk, Except.toBool]
          constructor
          · intro h; exact absurd h (by simp)
          · intro h; omega
        · intro s hs; exact absurd hs (by simp)

/-- C6 witness: a legal two-seat configuration with the 52-card deck starts
successfully. -/
theorem C6_start_hand_config_witness :
    (startHand 10 20 [(0, 100), (1, 100)] 0 fullDeck).isOk = true := by
  exact (C6_start_hand_config 10 20 [(0, 100), (1, 100)] 0 fullDeck (by decide)
    (by norm_num)).1.mpr ⟨by norm_num, by norm_num⟩

/-- Folding accepted steps over an accepted-only runner preserves
reachability. -/
theorem foldl_stepOk_reachable (cfg : HandConfig) :
    ∀ (acts : List (ℕ × Action)) (r : Except String GameState) (s : GameState),
    (∀ t, r = .ok t → Reachable cfg t) → acts.foldl stepOk r = .ok s → Reachable cfg s := by
  intro acts
  induction acts with
  | nil => intro r s hr h; exact hr s h
  | cons pa rest ih =>
    intro r s hr h
    simp only [List.foldl_cons] at h
    apply ih (stepOk r pa) s _ h
    intro t ht
    unfold stepOk at ht
    cases r with
    | error e => exact absurd ht (by simp)
    | ok s0 =>
      dsimp only at ht
      cases hpa : processAction s0 pa.1 pa.2 with
      | error e =>
        rw [hpa] at ht
        exact absurd ht (by simp)
      | ok out =>
        obtain ⟨s', b, rr⟩ := out
        cases b with
        | true =>
          rw [hpa] at ht
          simp only [Except.ok.injEq] at ht
          subst ht
          exact Reachable.step s0 s' pa.1 pa.2 rr (hr s0 rfl) hpa
        | false =>
          rw [hpa] at ht
          exact absurd ht (by simp)

/-- A successful `runHand` reaches a `Reachable` state. -/
theorem runHand_ok_reachable (cfg : HandConfig) (acts : List (ℕ × Action)) (s : GameState)
    (h : runHand cfg acts = .ok s) : Reachable cfg s :=
  foldl_stepOk_reachable cfg acts _ s (fun t ht => Reachable.start t ht) h

/-- C2: in a reachable state where a short all-in raise has removed Raise
from `get_legal_actions`, `process_action` nevertheless ACCEPTS a raise
whose increment meets the stale `min_raise` — the validator never applies
the re-opening restriction, contradicting the claimed legality/validation
agreement (and the engine's own TDA Rule 47 comment). -/
theorem C2_legality_validation_disagreement :
    Reachable cfgC2 c2State ∧
    gameLegalActions c2State 0 = [ActionType.fold, ActionType.call, ActionType.allIn] ∧
    acceptedOf (processAction c2State 0 ⟨ActionType.raiseTo, 1080⟩) = true := by
  have hok : (runHand cfgC2 c2Acts).isOk = true := by
    norm_num +decide [runHand, stepOk, startHand, cfgC2, c2Acts, dealHands, deckDeal, postBlind,
      placeBet, pGet, processAction, validateAction, getPotSize, consumeBBOption, applyFold,
      applyCheck, applyCall, applyBet, applyRaiseTo, applyAllIn, checkHandOver, finishAction,
      isBettingRoundOver, advanceActor, findEligibleFrom, advanceStreet, advanceStreetAux,
      advanceStreetAux.continueOrAuto, collectAndReset, resetForNewRound, resetActorForStreet,
      shouldAutoAdvance, showdownFn, Player.is_folded, Player.is_all_in, fullDeck, allSuits,
      allRanks, min_def, List.filter_cons, List.findIdx_cons, List.getD, List.all_cons,
      Except.isOk, Except.toBool]
  have heq : runHand cfgC2 c2Acts = .ok c2State := by
    simpa only [c2State] using ok_of_isOk hok
  refine ⟨runHand_ok_reachable _ _ _ heq, ?_, ?_⟩
  · norm_num +decide [c2State, stateOf, runHand, stepOk, startHand, cfgC2, c2Acts, dealHands,
      deckDeal, postBlind, placeBet, pGet, processAction, validateAction, getPotSize,
      consumeBBOption, applyFold, applyCheck, applyCall, applyBet, applyRaiseTo, applyAllIn,
      checkHandOver, finishAction, isBettingRoundOver, advanceActor, findEligibleFrom,
      advanceStreet, advanceStreetAux, advanceStreetAux.continueOrAuto, collectAndReset,
      resetForNewRound, resetActorForStreet, shouldAutoAdvance, showdownFn, gameLegalActions,
      legalActionKinds, sbPosOf, Player.is_folded, Player.is_all_in, fullDeck, allSuits,
      allRanks, min_def, List.filter_cons, List.findIdx_cons, List.getD, List.all_cons,
      List.erase_cons]
  · norm_num +decide [c2State, stateOf, runHand, stepOk, startHand, cfgC2, c2Acts, dealHands,
      deckDeal, postBlind, placeBet, pGet, processAction, validateAction, getPotSize,
      consumeBBOption, applyFold, applyCheck, applyCall, applyBet, applyRaiseTo, applyAllIn,
      checkHandOver, finishAction, isBettingRoundOver, advanceActor, findEligibleFrom,
      advanceStreet, advanceStreetAux, advanceStreetAux.continueOrAuto, collectAndReset,
      resetForNewRound, resetActorForStreet, shouldAutoAdvance, showdownFn, acceptedOf,
      Player.is_folded, Player.is_all_in, fullDeck, allSuits, allRanks, min_def,
      List.filter_cons, List.findIdx_cons, List.getD, List.all_cons]

/-- C1 counterexample: in the heads-up 100/100 hand where the small blind
folds at once, the settled state is reachable and over, yet
`Σ chips + pot + Σ bet_this_round = 230 ≠ 200`: the pot accumulator keeps
the 30 chips that were already paid to the winner, so the claimed
conservation identity fails after the hand is over. -/
theorem C1_conservation_counterexample :
    Reachable cfgC1 c1FoldState ∧ c1FoldState.is_hand_over = true ∧
    moneySum c1FoldState ≠ startingTotal cfgC1.seats := by
  have hok : (runHand cfgC1 [(0, ⟨ActionType.fold, 0⟩)]).isOk = true := by
    norm_num +decide [runHand, stepOk, startHand, cfgC1, dealHands, deckDeal, postBlind,
      placeBet, pGet, processAction, validateAction, getPotSize, consumeBBOption, applyFold,
      checkHandOver, finishAction, isBettingRoundOver, advanceActor, findEligibleFrom,
      Player.is_folded, Player.is_all_in, fullDeck, allSuits, allRanks, min_def,
      List.filter_cons, List.findIdx_cons, List.getD, List.all_cons, Except.isOk, Except.toBool]
  have heq : runHand cfgC1 [(0, ⟨ActionType.fold, 0⟩)] = .ok c1FoldState := by
    simpa only [c1FoldState] using ok_of_isOk hok
  refine ⟨runHand_ok_reachable _ _ _ heq, ?_, ?_⟩
  · norm_num +decide [c1FoldState, stateOf, runHand, stepOk, startHand, cfgC1, dealHands,
      deckDeal, postBlind, placeBet, pGet, processAction, validateAction, getPotSize,
      consumeBBOption, applyFold, checkHandOver, finishAction, isBettingRoundOver, advanceActor,
      findEligibleFrom, Player.is_folded, Player.is_all_in, fullDeck, allSuits, allRanks,
      min_def, List.filter_cons, List.findIdx_cons, List.getD, List.all_cons]
  · norm_num +decide [c1FoldState, stateOf, runHand, stepOk, startHand, cfgC1, dealHands,
      deckDeal, postBlind, placeBet, pGet, processAction, validateAction, getPotSize,
      consumeBBOption, applyFold, checkHandOver, finishAction, isBettingRoundOver, advanceActor,
      findEligibleFrom, Player.is_folded, Player.is_all_in, fullDeck, allSuits, allRanks,
      min_def, List.filter_cons, List.findIdx_cons, List.getD, List.all_cons, moneySum,
      startingTotal]

/-! ### Chip conservation while the hand is open (C1, amended) -/

/-- Replacing a list element by a player with the same `f`-value keeps the
mapped sum. -/
theorem list_sum_map_set (f : Player → ℚ) :
    ∀ (l : List Player) (i : ℕ) (x : Player), f x = f (pGet l i) →
    ((l.set i x).map f).sum = (l.map f).sum := by
  intro l
  induction l with
  | nil => intro i x _; rfl
  | cons a t ih =>
    intro i x hx
    cases i with
    | zero =>
      rw [pGet_cons_zero] at hx
      show f x + (t.map f).sum = f a + (t.map f).sum
      rw [hx]
    | succ j =>
      rw [pGet_cons_succ] at hx
      show f a + ((t.set j x).map f).sum = f a + (t.map f).sum
      rw [ih j x hx]

/-- Summing a pointwise sum splits into two sums. -/
theorem list_sum_map_add (l : List Player) (f g : Player → ℚ) :
    (l.map (fun p => f p + g p)).sum = (l.map f).sum + (l.map g).sum := by
  induction l with
  | nil => simp
  | cons a t ih =>
    simp only [List.map_cons, List.sum_cons, ih]
    ring

/-- `place_bet` moves money between the stack and the round bet but keeps
their total. -/
theorem placeBet_money (p : Player) (a : ℚ) :
    (placeBet p a).1.chips + (placeBet p a).1.bet_this_round =
      p.chips + p.bet_this_round := by
  rw [placeBet_chips, placeBet_btr]
  ring

theorem moneySum_bump (s : GameState) (k : ℕ) :
    moneySum { s with actions_this_round := k } = moneySum s := rfl

theorem over_bump (s : GameState) (k : ℕ) :
    ({ s with actions_this_round := k } : GameState).is_hand_over = s.is_hand_over := rfl

/-- Consuming the BB option does not move money. -/
theorem moneySum_consumeBBOption (s : GameState) (pid : ℕ) :
    moneySum (consumeBBOption s pid) = moneySum s := by
  unfold consumeBBOption
  dsimp only
  split
  · split <;> split <;> rfl
  · rfl

theorem consumeBBOption_over (s : GameState) (pid : ℕ) :
    (consumeBBOption s pid).is_hand_over = s.is_hand_over := by
  unfold consumeBBOption
  dsimp only
  split
  · split <;> split <;> rfl
  · rfl

/-- Folding does not move money. -/
theorem moneySum_applyFold (s : GameState) (pid : ℕ) :
    moneySum (applyFold s pid) = moneySum s := by
  unfold moneySum applyFold
  dsimp only
  congr 1
  exact list_sum_map_set _ s.players pid _ rfl

theorem applyFold_over (s : GameState) (pid : ℕ) :
    (applyFold s pid).is_hand_over = s.is_hand_over := rfl

/-- Checking does not move money. -/
theorem moneySum_applyCheck (s : GameState) (pid : ℕ) :
    moneySum (applyCheck s pid) = moneySum s := by
  unfold moneySum applyCheck
  dsimp only
  congr 1
  exact list_sum_map_set _ s.players pid _ rfl

theorem applyCheck_over (s : GameState) (pid : ℕ) :
    (applyCheck s pid).is_hand_over = s.is_hand_over := rfl

/-- Calling does not change the money sum. -/
theorem moneySum_applyCall (s : GameState) (pid : ℕ) :
    moneySum (applyCall s pid) = moneySum s := by
  unfold moneySum applyCall
  dsimp only
  congr 1
  refine list_sum_map_set _ s.players pid _ ?_
  exact placeBet_money _ _

theorem applyCall_over (s : GameState) (pid : ℕ) :
    (applyCall s pid).is_hand_over = s.is_hand_over := rfl

/-- Betting does not change the money sum. -/
theorem moneySum_applyBet (s : GameState) (pid : ℕ) (a : Action) :
    moneySum (applyBet s pid a) = moneySum s := by
  unfold moneySum applyBet
  dsimp only
  congr 1
  refine list_sum_map_set _ s.players pid _ ?_
  exact placeBet_money _ _

theorem applyBet_over (s : GameState) (pid : ℕ) (a : Action) :
    (applyBet s pid a).is_hand_over = s.is_hand_over := rfl

/-- Raising does not change the money sum. -/
theorem moneySum_applyRaiseTo (s : GameState) (pid : ℕ) (a : Action) :
    moneySum (applyRaiseTo s pid a) = moneySum s := by
  unfold moneySum applyRaiseTo
  dsimp only
  congr 1
  refine list_sum_map_set _ s.players pid _ ?_
  exact placeBet_money _ _

theorem applyRaiseTo_over (s : GameState) (pid : ℕ) (a : Action) :
    (applyRaiseTo s pid a).is_hand_over = s.is_hand_over := rfl

theorem applyAllIn_pot (s : GameState) (pid : ℕ) : (applyAllIn s pid).pot = s.pot := by
  unfold applyAllIn
  dsimp only
  split
  · split <;> rfl
  · rfl

theorem applyAllIn_players (s : GameState) (pid : ℕ) :
    (applyAllIn s pid).players =
      s.players.set pid
        { (placeBet (pGet s.players pid) (pGet s.players pid).chips).1 with
          last_action :=
            some (.allInA (placeBet (pGet s.players pid) (pGet s.players pid).chips).2) } := by
  unfold applyAllIn
  dsimp only
  split
  · split <;> rfl
  · rfl

theorem applyAllIn_over (s : GameState) (pid : ℕ) :
    (applyAllIn s pid).is_hand_over = s.is_hand_over := by
  unfold applyAllIn
  dsimp only
  split
  · split <;> rfl
  · rfl

/-- Going all in does not change the money sum. -/
theorem moneySum_applyAllIn (s : GameState) (pid : ℕ) :
    moneySum (applyAllIn s pid) = moneySum s := by
  unfold moneySum
  rw [applyAllIn_pot, applyAllIn_players]
  congr 1
  refine list_sum_map_set _ s.players pid _ ?_
  exact placeBet_money _ _

/-- `_advance_actor` only moves the cursor. -/
theorem moneySum_advanceActor (s : GameState) :
    moneySum (advanceActor s) = moneySum s := by
  unfold moneySum advanceActor
  dsimp only
  split
  · rfl
  · split <;> rfl

theorem advanceActor_over (s : GameState) :
    (advanceActor s).is_hand_over = s.is_hand_over := by
  unfold advanceActor
  dsimp only
  split
  · rfl
  · split <;> rfl

/-- The street actor reset only moves the cursor. -/
theorem moneySum_resetActorForStreet (s : GameState) :
    moneySum (resetActorForStreet s) = moneySum s := by
  unfold moneySum resetActorForStreet
  dsimp only
  split <;> rfl

theorem resetActorForStreet_over (s : GameState) :
    (resetActorForStreet s).is_hand_over = s.is_hand_over := by
  unfold resetActorForStreet
  dsimp only
  split <;> rfl

/-- Collecting the round bets into the pot conserves the money sum. -/
theorem moneySum_collectAndReset (s : GameState) :
    moneySum (collectAndReset s) = moneySum s := by
  unfold moneySum collectAndReset
  dsimp only
  rw [List.map_map]
  have h1 : (s.players.map ((fun p => p.chips + p.bet_this_round) ∘ resetForNewRound)).sum
      = (s.players.map (fun p => p.chips)).sum := by
    refine congrArg List.sum (List.map_congr_left ?_)
    intro p _
    show p.chips + (0 : ℚ) = p.chips
    exact add_zero _
  rw [h1, list_sum_map_add s.players (fun p => p.chips) (fun p => p.bet_this_round)]
  ring

/-- `_check_hand_over` that leaves the hand open did not fire. -/
theorem checkHandOver_eq_of_not_over (s : GameState)
    (h : (checkHandOver s).is_hand_over = false) : checkHandOver s = s := by
  unfold checkHandOver at h ⊢
  dsimp only at h ⊢
  split at h
  case isTrue hc =>
    dsimp only at h
    simp at h
  case isFalse hc =>
    rw [if_neg hc]

/-- `_showdown` always ends the hand. -/
theorem showdownFn_over (s : GameState) : (showdownFn s).is_hand_over = true := by
  unfold showdownFn
  dsimp only
  split <;> rfl

/-- Dealing hole cards changes no money-relevant field. -/
theorem dealHands_sum (f : Player → ℚ)
    (hf : ∀ (p : Player) (cs : List Card), f { p with hand := cs } = f p) :
    ∀ (ps psb : List Player) (d d2 : List Card), dealHands ps d = .ok (psb, d2) →
    (psb.map f).sum = (ps.map f).sum := by
  intro ps
  induction ps with
  | nil =>
    intro psb d d2 h
    simp only [dealHands, Except.ok.injEq, Prod.mk.injEq] at h
    obtain ⟨h1, -⟩ := h
    subst h1
    rfl
  | cons p rest ih =>
    intro psb d d2 h
    unfold dealHands at h
    split at h
    · exact absurd h (by simp)
    · split at h
      · exact absurd h (by simp)
      · rename_i ps2 drest2 heq2
        simp only [Except.ok.injEq, Prod.mk.injEq] at h
        obtain ⟨h1, -⟩ := h
        subst h1
        simp only [List.map_cons, List.sum_cons]
        rw [hf, ih _ _ _ heq2]

/-- Posting the two blinds keeps the players' money sum. -/
theorem sum_after_blinds (dealt : List Player) (sbPos bbPos : ℕ) (sb bb : ℚ) :
    (((dealt.set sbPos
          { (postBlind (pGet dealt sbPos) sb).1 with last_action := some .postSB }).set bbPos
          { (postBlind (pGet (dealt.set sbPos
              { (postBlind (pGet dealt sbPos) sb).1 with last_action := some .postSB }) bbPos)
                bb).1 with
            last_action := some .postBB }).map (fun p => p.chips + p.bet_this_round)).sum =
      (dealt.map (fun p => p.chips + p.bet_this_round)).sum := by
  refine Eq.trans (list_sum_map_set _ _ bbPos _ ?_) (list_sum_map_set _ _ sbPos _ ?_)
  · exact placeBet_money _ _
  · exact placeBet_money _ _

/-- A successful `start_hand` satisfies the conservation identity and leaves
the hand open. -/
theorem startHand_money (sb bb : ℚ) (seats : List (ℕ × ℚ)) (button : ℕ) (deck : List Card)
    (s : GameState) (h : startHand sb bb seats button deck = .ok s) :
    moneySum s = startingTotal seats ∧ s.is_hand_over = false := by
  unfold startHand at h
  dsimp only at h
  split at h
  · exact absurd h (by simp)
  · split at h
    · exact absurd h (by simp)
    · rename_i dealt deckRest heq
      simp only [Except.ok.injEq] at h
      subst h
      constructor
      · unfold moneySum
        dsimp only
        refine Eq.trans (zero_add _) ?_
        refine Eq.trans (sum_after_blinds dealt
          (if seats.length = 2 then button else (button + 1) % seats.length)
          (if seats.length = 2 then (button + 1) % seats.length
           else (button + 2) % seats.length) sb bb) ?_
        refine Eq.trans (dealHands_sum (fun p => p.chips + p.bet_this_round)
          (fun p cs => rfl) _ _ _ _ heq) ?_
        rw [List.map_map]
        unfold startingTotal
        refine congrArg List.sum (List.map_congr_left ?_)
        intro pi _
        show pi.2 + (0 : ℚ) = pi.2
        exact add_zero _
      · rfl

/-- While the hand ends up open, `_advance_street` preserves the money sum,
and could not have started from a settled state. -/
theorem advanceStreetAux_money : ∀ (fuel : ℕ) (s s2 : GameState),
    advanceStreetAux fuel s = .ok s2 → s2.is_hand_over = false →
    moneySum s2 = moneySum s ∧ s.is_hand_over = false := by
  intro fuel
  induction fuel with
  | zero =>
    intro s s2 h
    exact absurd h (by simp [advanceStreetAux])
  | succ n ih =>
    intro s s2 h hov
    have hco : ∀ (t u : GameState), advanceStreetAux.continueOrAuto n t = .ok u →
        u.is_hand_over = false → moneySum u = moneySum t ∧ t.is_hand_over = false := by
      intro t u hc hu
      unfold advanceStreetAux.continueOrAuto at hc
      dsimp only at hc
      split at hc
      · obtain ⟨hm, h2⟩ := ih _ _ hc hu
        refine ⟨hm.trans (moneySum_resetActorForStreet t), ?_⟩
        rw [← resetActorForStreet_over t]
        exact h2
      · simp only [Except.ok.injEq] at hc
        subst hc
        refine ⟨moneySum_resetActorForStreet t, ?_⟩
        rw [← resetActorForStreet_over t]
        exact hu
    unfold advanceStreetAux at h
    dsimp only at h
    cases hst : s.street with
    | preflop =>
      rw [hst] at h
      dsimp only at h
      cases hd1 : deckDeal 1 (collectAndReset s).deck with
      | error e => rw [hd1] at h; exact absurd h (by simp)
      | ok pr1 =>
        obtain ⟨b1, d1⟩ := pr1
        rw [hd1] at h
        dsimp only at h
        cases hd2 : deckDeal 3 d1 with
        | error e => rw [hd2] at h; exact absurd h (by simp)
        | ok pr2 =>
          obtain ⟨cs2, d2⟩ := pr2
          rw [hd2] at h
          dsimp only at h
          obtain ⟨hm, h2⟩ := hco _ _ h hov
          refine ⟨?_, h2⟩
          rw [hm]
          exact moneySum_collectAndReset s
    | flop =>
      rw [hst] at h
      dsimp only at h
      cases hd1 : deckDeal 1 (collectAndReset s).deck with
      | error e => rw [hd1] at h; exact absurd h (by simp)
      | ok pr1 =>
        obtain ⟨b1, d1⟩ := pr1
        rw [hd1] at h
        dsimp only at h
        cases hd2 : deckDeal 1 d1 with
        | error e => rw [hd2] at h; exact absurd h (by simp)
        | ok pr2 =>
          obtain ⟨cs2, d2⟩ := pr2
          rw [hd2] at h
          dsimp only at h
          obtain ⟨hm, h2⟩ := hco _ _ h hov
          refine ⟨?_, h2⟩
          rw [hm]
          exact moneySum_collectAndReset s
    | turn =>
      rw [hst] at h
      dsimp only at h
      cases hd1 : deckDeal 1 (collectAndReset s).deck with
      | error e => rw [hd1] at h; exact absurd h (by simp)
      | ok pr1 =>
        obtain ⟨b1, d1⟩ := pr1
        rw [hd1] at h
        dsimp only at h
        cases hd2 : deckDeal 1 d1 with
        | error e => rw [hd2] at h; exact absurd h (by simp)
        | ok pr2 =>
          obtain ⟨cs2, d2⟩ := pr2
          rw [hd2] at h
          dsimp only at h
          obtain ⟨hm, h2⟩ := hco _ _ h hov
          refine ⟨?_, h2⟩
          rw [hm]
          exact moneySum_collectAndReset s
    | river =>
      rw [hst] at h
      dsimp only at h
      simp only [Except.ok.injEq] at h
      subst h
      rw [showdownFn_over] at hov
      exact absurd hov (by simp)
    | showdown =>
      rw [hst] at h
      dsimp only at h
      simp only [Except.ok.injEq] at h
      subst h
      exact ⟨moneySum_collectAndReset s, hov⟩

/-- The round epilogue preserves money while the hand ends up open. -/
theorem finishAction_money (s s2 : GameState) (r : Option String)
    (h : finishAction s = .ok (s2, true, r)) (hov : s2.is_hand_over = false) :
    moneySum s2 = moneySum s ∧ s.is_hand_over = false := by
  unfold finishAction at h
  split at h
  · split at h
    · exact absurd h (by simp)
    · rename_i t heq
      simp only [Except.ok.injEq, Prod.mk.injEq] at h
      obtain ⟨h1, -, -⟩ := h
      subst h1
      exact advanceStreetAux_money 4 s t heq hov
  · simp only [Except.ok.injEq, Prod.mk.injEq] at h
    obtain ⟨h1, -, -⟩ := h
    subst h1
    refine ⟨moneySum_advanceActor s, ?_⟩
    rw [advanceActor_over] at hov
    exact hov

/-- An accepted `process_action` that leaves the hand open preserves the
money sum (and started from an open state). -/
theorem processAction_money (s s2 : GameState) (pid : ℕ) (a : Action) (r : Option String)
    (h : processAction s pid a = .ok (s2, true, r)) (hov : s2.is_hand_over = false) :
    moneySum s2 = moneySum s ∧ s.is_hand_over = false := by
  simp only [processAction] at h
  split at h
  · simp only [Except.ok.injEq, Prod.mk.injEq] at h
    exact absurd h.2.1 (by simp)
  · split at h
    · simp only [Except.ok.injEq, Prod.mk.injEq] at h
      exact absurd h.2.1 (by simp)
    · cases hat : a.action_type
      case fold =>
        rw [hat] at h
        dsimp only at h
        split at h
        case isTrue hc =>
          simp only [Except.ok.injEq, Prod.mk.injEq] at h
          obtain ⟨h1, -, -⟩ := h
          subst h1
          dsimp only at hov
          rw [hc] at hov
          exact absurd hov (by simp)
        case isFalse hc =>
          simp only [Bool.not_eq_true] at hc
          obtain ⟨hm, h2⟩ := finishAction_money _ _ _ h hov
          have hid := checkHandOver_eq_of_not_over _ hc
          constructor
          · rw [hm, hid, moneySum_applyFold, moneySum_consumeBBOption, moneySum_bump]
          · rw [hid, applyFold_over, consumeBBOption_over, over_bump] at h2
            exact h2
      case check =>
        rw [hat] at h
        dsimp only at h
        obtain ⟨hm, h2⟩ := finishAction_money _ _ _ h hov
        constructor
        · rw [hm, moneySum_applyCheck, moneySum_consumeBBOption, moneySum_bump]
        · rw [applyCheck_over, consumeBBOption_over, over_bump] at h2
          exact h2
      case call =>
        rw [hat] at h
        dsimp only at h
        obtain ⟨hm, h2⟩ := finishAction_money _ _ _ h hov
        constructor
        · rw [hm, moneySum_applyCall, moneySum_consumeBBOption, moneySum_bump]
        · rw [applyCall_over, consumeBBOption_over, over_bump] at h2
          exact h2
      case bet =>
        rw [hat] at h
        dsimp only at h
        obtain ⟨hm, h2⟩ := finishAction_money _ _ _ h hov
        constructor
        · rw [hm, moneySum_applyBet, moneySum_consumeBBOption, moneySum_bump]
        · rw [applyBet_over, consumeBBOption_over, over_bump] at h2
          exact h2
      case raiseTo =>
        rw [hat] at h
        dsimp only at h
        obtain ⟨hm, h2⟩ := finishAction_money _ _ _ h hov
        constructor
        · rw [hm, moneySum_applyRaiseTo, moneySum_consumeBBOption, moneySum_bump]
        · rw [applyRaiseTo_over, consumeBBOption_over, over_bump] at h2
          exact h2
      case allIn =>
        rw [hat] at h
        dsimp only at h
        obtain ⟨hm, h2⟩ := finishAction_money _ _ _ h hov
        constructor
        · rw [hm, moneySum_applyAllIn, moneySum_consumeBBOption, moneySum_bump]
        · rw [applyAllIn_over, consumeBBOption_over, over_bump] at h2
          exact h2

/-- C1 (amended): chip conservation holds at every reachable point while the
hand is open — for every state reachable from `start_hand` through accepted
`process_action` calls with `is_hand_over = false`, the pot accumulator plus
every seat's chips and round bet equals the sum of the starting stacks.  The
settled states violate the claimed unconditional identity (see the
counterexample): `_check_hand_over` and `_showdown` pay the winners without
clearing the pot accumulator. -/
theorem C1_conservation_invariant (cfg : HandConfig) (s : GameState)
    (hre : Reachable cfg s) (hov : s.is_hand_over = false) :
    moneySum s = startingTotal cfg.seats := by
  revert hov
  induction hre with
  | start s0 h =>
    intro _
    exact (startHand_money _ _ _ _ _ _ h).1
  | step s0 s1 pid a r hre0 hstep ih =>
    intro hov
    obtain ⟨hm, h0⟩ := processAction_money s0 s1 pid a r hstep hov
    rw [hm]
    exact ih h0

/-- Witness: the freshly started heads-up 100/100 hand is reachable, open,
and satisfies the conservation identity. -/
theorem C1_conservation_invariant_witness :
    moneySum (stateOf (runHand cfgC1 [])) = startingTotal cfgC1.seats := by
  have hok : (runHand cfgC1 []).isOk = true := by
    norm_num +decide [runHand, startHand, cfgC1, dealHands, deckDeal, postBlind, placeBet,
      pGet, fullDeck, allSuits, allRanks, min_def, Except.isOk, Except.toBool]
  have heq := ok_of_isOk hok
  refine C1_conservation_invariant cfgC1 _ (Reachable.start _ heq) ?_
  norm_num +decide [stateOf, runHand, startHand, cfgC1, dealHands, deckDeal, postBlind,
    placeBet, pGet, fullDeck, allSuits, allRanks, min_def]

/-! ### Category dominance of the evaluator score (C7) -/

/-- The straight scan returns 0 or one of the scanned ranks. -/
theorem scanStraight_zero_or_mem : ∀ u : List ℕ, scanStraight u = 0 ∨ scanStraight u ∈ u := by
  intro u
  induction u with
  | nil => exact Or.inl rfl
  | cons a rest ih =>
    cases rest with
    | nil => exact Or.inl rfl
    | cons b r2 =>
      cases r2 with
      | nil => exact Or.inl rfl
      | cons c r3 =>
        cases r3 with
        | nil => exact Or.inl rfl
        | cons d r4 =>
          cases r4 with
          | nil => exact Or.inl rfl
          | cons e r5 =>
            simp only [scanStraight]
            split
            · exact Or.inr (List.mem_cons_self _ _)
            · rcases ih with h0 | hm
              · exact Or.inl h0
              · exact Or.inr (List.mem_cons_of_mem _ hm)

/-- `_check_straight` stays below 16 on sub-16 ranks (it returns a rank, 5,
or 0). -/
theorem checkStraight_lt (rs : List ℕ) (h : ∀ r ∈ rs, r < 16) : checkStraight rs < 16 := by
  unfold checkStraight
  dsimp only
  split
  · rcases scanStraight_zero_or_mem ((rs.dedup).insertionSort natDesc) with h0 | hm
    · rename_i hne
      exact absurd h0 hne
    · exact h _ (List.mem_dedup.mp
        ((List.perm_insertionSort natDesc rs.dedup).mem_iff.mp hm))
  · split
    · norm_num
    · norm_num

/-- The sorted count pairs carry ranks of the input list. -/
theorem sortedCounts_fst_mem (ranks : List ℕ) :
    ∀ x ∈ sortedCounts ranks, x.1 ∈ ranks := by
  intro x hx
  unfold sortedCounts at hx
  have hx2 := (List.perm_insertionSort countDesc _).mem_iff.mp hx
  obtain ⟨r, hr, hxr⟩ := List.mem_map.mp hx2
  subst hxr
  exact List.mem_dedup.mp hr

/-- The OR-accumulation of sub-16 values into descending 4-bit fields only
adds bits below `2 ^ (shift + 4)`. -/
theorem orFields_split : ∀ (rs : List ℕ) (acc shift : ℕ), (∀ r ∈ rs, r < 16) →
    4 * rs.length ≤ shift + 4 →
    ∃ t, orFields acc rs shift = acc ||| t ∧ t < 2 ^ (shift + 4) := by
  intro rs
  induction rs with
  | nil =>
    intro acc shift _ _
    exact ⟨0, by simp [orFields], Nat.two_pow_pos _⟩
  | cons r rest ih =>
    intro acc shift hb hlen
    simp only [orFields]
    obtain ⟨t2, ht2, ht2lt⟩ := ih (acc ||| (r <<< shift)) (shift - 4)
      (fun x hx => hb x (List.mem_cons_of_mem _ hx))
      (by simp only [List.length_cons] at hlen; omega)
    refine ⟨(r <<< shift) ||| t2, ?_, ?_⟩
    · rw [ht2, Nat.lor_assoc]
    · have h16 : r < 16 := hb r (List.mem_cons_self _ _)
      have h1 : r <<< shift < 2 ^ (shift + 4) := by
        rw [Nat.shiftLeft_eq, pow_add]
        have h24 : (2 : ℕ) ^ 4 = 16 := by norm_num
        calc r * 2 ^ shift < 16 * 2 ^ shift := by
              exact Nat.mul_lt_mul_of_lt_of_le h16 (le_refl _) (Nat.two_pow_pos shift)
          _ = 2 ^ shift * 2 ^ 4 := by rw [h24]; ring
      have h2 : t2 < 2 ^ (shift + 4) :=
        lt_of_lt_of_le ht2lt (Nat.pow_le_pow_right (by norm_num) (by omega))
      exact Nat.or_lt_two_pow h1 h2

/-- OR of a shifted value with disjoint low bits is addition. -/
theorem lor_split_add (q k b : ℕ) (hb : b < 2 ^ k) : (q * 2 ^ k) ||| b = q * 2 ^ k + b := by
  rw [mul_comm q (2 ^ k)]
  exact (Nat.mul_add_lt_is_or hb q).symm

/-- Shifting a category-split score right by 20 recovers the category. -/
theorem shift20_of_split (c t : ℕ) (ht : t < 2 ^ 20) : (c * 2 ^ 20 + t) >>> 20 = c := by
  rw [Nat.shiftRight_eq_div_pow, mul_comm, Nat.mul_add_div (by norm_num),
    Nat.div_eq_of_lt ht]
  omega

/-- Processed cards carry rank values below 16. -/
theorem processCards_rank_lt (l : List Card) : ∀ c ∈ processCards l, c.1 < 16 := by
  intro c hc
  obtain ⟨x, hx, hxc⟩ := List.mem_map.mp hc
  subst hxc
  obtain ⟨s, r⟩ := x
  dsimp only
  cases r <;> decide

/-- `_get_score` splits as `category * 2^20 + tiebreakers` with the
tiebreakers strictly below `2^20`: the kicker bits never reach the category
field. -/
theorem getScore_split (cards : List PCard) (hb : ∀ c ∈ cards, c.1 < 16) :
    ∃ t, getScore cards = catOf cards * 2 ^ 20 + t ∧ t < 2 ^ 20 := by
  have hsorted : ∀ c ∈ cards.insertionSort rankDesc, c.1 < 16 := fun c hc =>
    hb c ((List.perm_insertionSort rankDesc cards).mem_iff.mp hc)
  have hranks : ∀ r ∈ (cards.insertionSort rankDesc).map Prod.fst, r < 16 := by
    intro r hr
    obtain ⟨c, hc, hcr⟩ := List.mem_map.mp hr
    subst hcr
    exact hsorted c hc
  unfold getScore catOf
  dsimp only
  cases hfs : flushSuitOf (cards.insertionSort rankDesc) with
  | some fs =>
    dsimp only
    have hflush : ∀ r ∈ ((cards.insertionSort rankDesc).filter
        (fun c => c.2 == fs)).map Prod.fst, r < 16 := by
      intro r hr
      obtain ⟨c, hc, hcr⟩ := List.mem_map.mp hr
      subst hcr
      exact hsorted c (List.mem_of_mem_filter hc)
    split_ifs with hsf
    · refine ⟨checkStraight (((cards.insertionSort rankDesc).filter
        (fun c => c.2 == fs)).map Prod.fst), ?_, ?_⟩
      · rw [Nat.shiftLeft_eq]
        exact lor_split_add _ 20 _ (lt_trans (checkStraight_lt _ hflush) (by norm_num))
      · exact lt_trans (checkStraight_lt _ hflush) (by norm_num)
    · have hb5 : ∀ r ∈ ((((cards.insertionSort rankDesc).filter
          (fun c => c.2 == fs)).take 5).map Prod.fst), r < 16 := by
        intro r hr
        obtain ⟨c, hc, hcr⟩ := List.mem_map.mp hr
        subst hcr
        exact hsorted c (List.mem_of_mem_filter ((List.take_sublist 5 _).subset hc))
      obtain ⟨t, ht, htlt⟩ := orFields_split
        ((((cards.insertionSort rankDesc).filter (fun c => c.2 == fs)).take 5).map Prod.fst)
        (FLUSH <<< 20) 16 hb5 (by simp [List.length_take]; omega)
      have htlt20 : t < 2 ^ 20 := by simpa using htlt
      refine ⟨t, ?_, htlt20⟩
      rw [ht, Nat.shiftLeft_eq]
      exact lor_split_add _ 20 _ htlt20
  | none =>
    dsimp only
    split_ifs with hst
    · refine ⟨checkStraight ((cards.insertionSort rankDesc).map Prod.fst), ?_, ?_⟩
      · rw [Nat.shiftLeft_eq]
        exact lor_split_add _ 20 _ (lt_trans (checkStraight_lt _ hranks) (by norm_num))
      · exact lt_trans (checkStraight_lt _ hranks) (by norm_num)
    · cases hsc : sortedCounts ((cards.insertionSort rankDesc).map Prod.fst) with
      | nil =>
        dsimp only
        exact ⟨0, by norm_num [HIGH_CARD, Nat.shiftLeft_eq], by norm_num⟩
      | cons hd restC =>
        obtain ⟨r0, c0⟩ := hd
        dsimp only
        have hmem0 := sortedCounts_fst_mem ((cards.insertionSort rankDesc).map Prod.fst)
        rw [hsc] at hmem0
        have hr0 : r0 < 16 := hranks _ (hmem0 (r0, c0) (List.mem_cons_self _ _))
        have hrestC : ∀ x ∈ restC, x.1 < 16 := fun x hx =>
          hranks _ (hmem0 x (List.mem_cons_of_mem _ hx))
        have hmapRest : ∀ r ∈ restC.map Prod.fst, r < 16 := by
          intro r hr
          obtain ⟨x, hx, hxr⟩ := List.mem_map.mp hr
          subst hxr
          exact hrestC x hx
        have hheadD0 : (restC.map Prod.fst).headD 0 < 16 := by
          cases restC with
          | nil => norm_num
          | cons y t2 =>
            exact hmapRest y.1 (List.mem_map_of_mem _ (List.mem_cons_self _ _))
        have hheadP : (restC.headD (0, 0)).1 < 16 := by
          cases restC with
          | nil => norm_num
          | cons y t2 => exact hrestC y (List.mem_cons_self _ _)
        have hdrop1 : ((restC.map Prod.fst).drop 1).headD 0 < 16 := by
          cases restC with
          | nil => norm_num
          | cons y t2 =>
            cases t2 with
            | nil => norm_num
            | cons z t3 =>
              exact hmapRest z.1
                (List.mem_map_of_mem _ (List.mem_cons_of_mem _ (List.mem_cons_self _ _)))
        have htake2 : ∀ r ∈ (restC.map Prod.fst).take 2, r < 16 := fun r hr =>
          hmapRest r ((List.take_sublist _ _).subset hr)
        have htake3 : ∀ r ∈ (restC.map Prod.fst).take 3, r < 16 := fun r hr =>
          hmapRest r ((List.take_sublist _ _).subset hr)
        have htake5 : ∀ r ∈ ((cards.insertionSort rankDesc).map Prod.fst).take 5, r < 16 :=
          fun r hr => hranks r ((List.take_sublist _ _).subset hr)
        split_ifs with h4 h32 h3 h22 h2p
        · have hbl : ∀ x ∈ [r0, (restC.map Prod.fst).headD 0], x < 16 := by
            intro x hx
            simp only [List.mem_cons, List.not_mem_nil, or_false] at hx
            rcases hx with rfl | rfl
            · exact hr0
            · exact hheadD0
          obtain ⟨t, ht, htlt⟩ := orFields_split [r0, (restC.map Prod.fst).headD 0]
            (FOUR_OF_A_KIND <<< 20) 16 hbl (by simp)
          have htlt20 : t < 2 ^ 20 := by simpa using htlt
          refine ⟨t, ?_, htlt20⟩
          rw [ht, Nat.shiftLeft_eq]
          exact lor_split_add _ 20 _ htlt20
        · have hbl : ∀ x ∈ [r0, (restC.headD (0, 0)).1], x < 16 := by
            intro x hx
            simp only [List.mem_cons, List.not_mem_nil, or_false] at hx
            rcases hx with rfl | rfl
            · exact hr0
            · exact hheadP
          obtain ⟨t, ht, htlt⟩ := orFields_split [r0, (restC.headD (0, 0)).1]
            (FULL_HOUSE <<< 20) 16 hbl (by simp)
          have htlt20 : t < 2 ^ 20 := by simpa using htlt
          refine ⟨t, ?_, htlt20⟩
          rw [ht, Nat.shiftLeft_eq]
          exact lor_split_add _ 20 _ htlt20
        · have hbl : ∀ x ∈ r0 :: (restC.map Prod.fst).take 2, x < 16 := by
            intro x hx
            rcases List.mem_cons.mp hx with rfl | hx2
            · exact hr0
            · exact htake2 _ hx2
          obtain ⟨t, ht, htlt⟩ := orFields_split (r0 :: (restC.map Prod.fst).take 2)
            (THREE_OF_A_KIND <<< 20) 16 hbl (by simp [List.length_take]; omega)
          have htlt20 : t < 2 ^ 20 := by simpa using htlt
          refine ⟨t, ?_, htlt20⟩
          rw [ht, Nat.shiftLeft_eq]
          exact lor_split_add _ 20 _ htlt20
        · have hbl : ∀ x ∈ [r0, (restC.headD (0, 0)).1, ((restC.map Prod.fst).drop 1).headD 0],
              x < 16 := by
            intro x hx
            simp only [List.mem_cons, List.not_mem_nil, or_false] at hx
            rcases hx with rfl | rfl | rfl
            · exact hr0
            · exact hheadP
            · exact hdrop1
          obtain ⟨t, ht, htlt⟩ := orFields_split
            [r0, (restC.headD (0, 0)).1, ((restC.map Prod.fst).drop 1).headD 0]
            (TWO_PAIR <<< 20) 16 hbl (by simp)
          have htlt20 : t < 2 ^ 20 := by simpa using htlt
          refine ⟨t, ?_, htlt20⟩
          rw [ht, Nat.shiftLeft_eq]
          exact lor_split_add _ 20 _ htlt20
        · have hbl : ∀ x ∈ r0 :: (restC.map Prod.fst).take 3, x < 16 := by
            intro x hx
            rcases List.mem_cons.mp hx with rfl | hx2
            · exact hr0
            · exact htake3 _ hx2
          obtain ⟨t, ht, htlt⟩ := orFields_split (r0 :: (restC.map Prod.fst).take 3)
            (PAIR <<< 20) 16 hbl (by simp [List.length_take]; omega)
          have htlt20 : t < 2 ^ 20 := by simpa using htlt
          refine ⟨t, ?_, htlt20⟩
          rw [ht, Nat.shiftLeft_eq]
          exact lor_split_add _ 20 _ htlt20
        · obtain ⟨t, ht, htlt⟩ := orFields_split
            (((cards.insertionSort rankDesc).map Prod.fst).take 5)
            (HIGH_CARD <<< 20) 16 htake5 (by simp [List.length_take]; omega)
          have htlt20 : t < 2 ^ 20 := by simpa using htlt
          refine ⟨t, ?_, htlt20⟩
          rw [ht, Nat.shiftLeft_eq]
          exact lor_split_add _ 20 _ htlt20

/-- C7: category dominance — whenever the evaluator classifies one input into
a strictly higher category than another, `evaluate` assigns it a strictly
larger score, regardless of the kickers; equivalently the tiebreaker bits
never carry into the category field: `score >>> 20` is exactly the category
(the branch of `_get_score` taken). -/
theorem C7_category_dominance (holeA commA holeB commB : List Card)
    (hlt : handCategory holeA commA < handCategory holeB commB) :
    evaluate holeA commA < evaluate holeB commB ∧
    evaluate holeA commA >>> 20 = handCategory holeA commA ∧
    evaluate holeB commB >>> 20 = handCategory holeB commB := by
  obtain ⟨t1, hs1, ht1⟩ := getScore_split (processCards (holeA ++ commA))
    (processCards_rank_lt _)
  obtain ⟨t2, hs2, ht2⟩ := getScore_split (processCards (holeB ++ commB))
    (processCards_rank_lt _)
  simp only [evaluate, handCategory] at hlt ⊢
  split_ifs at hlt ⊢ with heA heB
  · exact absurd hlt (lt_irrefl 0)
  · refine ⟨?_, rfl, ?_⟩
    · rw [hs2]
      calc 0 < 2 ^ 20 := by norm_num
        _ ≤ catOf (processCards (holeB ++ commB)) * 2 ^ 20 :=
            Nat.le_mul_of_pos_left _ hlt
        _ ≤ catOf (processCards (holeB ++ commB)) * 2 ^ 20 + t2 := Nat.le_add_right _ _
    · rw [hs2]
      exact shift20_of_split _ _ ht2
  · exact absurd hlt (Nat.not_lt_zero _)
  · rw [hs1, hs2]
    refine ⟨?_, shift20_of_split _ _ ht1, shift20_of_split _ _ ht2⟩
    calc catOf (processCards (holeA ++ commA)) * 2 ^ 20 + t1
        < catOf (processCards (holeA ++ commA)) * 2 ^ 20 + 2 ^ 20 := by omega
      _ = (catOf (processCards (holeA ++ commA)) + 1) * 2 ^ 20 := by ring
      _ ≤ catOf (processCards (holeB ++ commB)) * 2 ^ 20 := Nat.mul_le_mul_right _ hlt
      _ ≤ catOf (processCards (holeB ++ commB)) * 2 ^ 20 + t2 := Nat.le_add_right _ _

/-- Witness: a 6-high straight scores below an ace-high flush, and both
scores carry their category in the bits above 20. -/
theorem C7_category_dominance_witness :
    handCategory sixHole sixCommunity < handCategory flushHole flushCommunity ∧
    (evaluate sixHole sixCommunity < evaluate flushHole flushCommunity ∧
     evaluate sixHole sixCommunity >>> 20 = handCategory sixHole sixCommunity ∧
     evaluate flushHole flushCommunity >>> 20 = handCategory flushHole flushCommunity) :=
  ⟨by decide, C7_category_dominance _ _ _ _ (by decide)⟩

/-! ### Wheel straight ranking (C8) -/

/-- On a strictly descending rank list, a successful straight scan means the
five consecutive ranks below the returned value are all present. -/
theorem scanStraight_windows : ∀ u : List ℕ, List.Sorted natDesc u → u.Nodup →
    scanStraight u = 0 ∨
      ∃ e, e ∈ u ∧ scanStraight u = e + 4 ∧
        (e + 1) ∈ u ∧ (e + 2) ∈ u ∧ (e + 3) ∈ u ∧ (e + 4) ∈ u := by
  intro u
  induction u with
  | nil => intro _ _; exact Or.inl rfl
  | cons a rest ih =>
    intro hs hn
    cases rest with
    | nil => exact Or.inl rfl
    | cons b r2 =>
      cases r2 with
      | nil => exact Or.inl rfl
      | cons c r3 =>
        cases r3 with
        | nil => exact Or.inl rfl
        | cons d r4 =>
          cases r4 with
          | nil => exact Or.inl rfl
          | cons e5 r5 =>
            have hstail := hs.of_cons
            have hntail := hn.of_cons
            simp only [scanStraight]
            split
            · rename_i hfire
              right
              have hba : b ≤ a := List.rel_of_sorted_cons hs _ (by simp)
              have hcb : c ≤ b := List.rel_of_sorted_cons hstail _ (by simp)
              have hdc : d ≤ c := List.rel_of_sorted_cons hstail.of_cons _ (by simp)
              have hed : e5 ≤ d := List.rel_of_sorted_cons hstail.of_cons.of_cons _ (by simp)
              have hab : a ≠ b := by
                intro h
                exact (List.nodup_cons.mp hn).1 (by simp [h])
              have hbc : b ≠ c := by
                intro h
                exact (List.nodup_cons.mp hntail).1 (by simp [h])
              have hcd : c ≠ d := by
                intro h
                exact (List.nodup_cons.mp hntail.of_cons).1 (by simp [h])
              have hde : d ≠ e5 := by
                intro h
                exact (List.nodup_cons.mp hntail.of_cons.of_cons).1 (by simp [h])
              refine ⟨e5, by simp, by omega, ?_, ?_, ?_, ?_⟩
              · rw [show e5 + 1 = d from by omega]
                simp
              · rw [show e5 + 2 = c from by omega]
                simp
              · rw [show e5 + 3 = b from by omega]
                simp
              · rw [show e5 + 4 = a from by omega]
                simp
            · rcases ih hstail hntail with h0 | ⟨e0, hm, heq, h1, h2, h3, h4⟩
              · exact Or.inl h0
              · exact Or.inr ⟨e0, List.mem_cons_of_mem _ hm, heq,
                  List.mem_cons_of_mem _ h1, List.mem_cons_of_mem _ h2,
                  List.mem_cons_of_mem _ h3, List.mem_cons_of_mem _ h4⟩

/-- Completeness of the straight scan: on a strictly descending list that
contains five consecutive ranks topped by `w + 4`, the scan returns at least
`w + 4`. -/
theorem scanStraight_ge (w : ℕ) : ∀ u : List ℕ, List.Sorted natDesc u → u.Nodup →
    w + 4 ∈ u → w + 3 ∈ u → w + 2 ∈ u → w + 1 ∈ u → w ∈ u →
    w + 4 ≤ scanStraight u := by
  intro u
  induction u with
  | nil => intro _ _ h _ _ _ _; exact absurd h (List.not_mem_nil _)
  | cons a rest ih =>
    intro hs hn h4 h3 h2 h1 h0
    have hsub : [w + 4, w + 3, w + 2, w + 1, w] ⊆ a :: rest := by
      intro x hx
      simp only [List.mem_cons, List.not_mem_nil, or_false] at hx
      rcases hx with rfl | rfl | rfl | rfl | rfl <;> assumption
    have hnd5 : ([w + 4, w + 3, w + 2, w + 1, w] : List ℕ).Nodup := by
      simp only [List.nodup_cons, List.mem_cons, List.not_mem_nil, List.nodup_nil,
        or_false, and_true, not_false_eq_true]
      omega
    have hlen : 5 ≤ (a :: rest).length := (List.subperm_of_subset hnd5 hsub).length_le
    cases rest with
    | nil => simp at hlen
    | cons b r2 =>
      cases r2 with
      | nil => simp at hlen
      | cons c r3 =>
        cases r3 with
        | nil => simp at hlen
        | cons d r4 =>
          cases r4 with
          | nil => simp at hlen
          | cons e5 r5 =>
            have hstail := hs.of_cons
            have hntail := hn.of_cons
            have hmax : ∀ x ∈ a :: b :: c :: d :: e5 :: r5, x ≤ a := by
              intro x hx
              rcases List.mem_cons.mp hx with rfl | hx2
              · exact le_refl x
              · exact List.rel_of_sorted_cons hs _ hx2
            simp only [scanStraight]
            split
            · exact hmax _ h4
            · rename_i hnofire
              by_cases hcase : a = w + 4
              · exfalso
                subst hcase
                have hanotin : (w + 4) ∉ b :: c :: d :: e5 :: r5 := (List.nodup_cons.mp hn).1
                have h3t : w + 3 ∈ b :: c :: d :: e5 :: r5 := by
                  rcases List.mem_cons.mp h3 with heq | h
                  · exact absurd heq (by omega)
                  · exact h
                have hbmax : ∀ x ∈ b :: c :: d :: e5 :: r5, x ≤ b := by
                  intro x hx
                  rcases List.mem_cons.mp hx with rfl | hx2
                  · exact le_refl x
                  · exact List.rel_of_sorted_cons hstail _ hx2
                have hbne : b ≠ w + 4 := by
                  intro h
                  exact hanotin (by simp [h])
                have hb3 : b = w + 3 := by
                  have hub : b ≤ w + 4 := hmax b (by simp)
                  have hlb : w + 3 ≤ b := hbmax _ h3t
                  omega
                have hbnotin : b ∉ c :: d :: e5 :: r5 := (List.nodup_cons.mp hntail).1
                have h2t : w + 2 ∈ c :: d :: e5 :: r5 := by
                  rcases List.mem_cons.mp h2 with heq | h
                  · exact absurd heq (by omega)
                  · rcases List.mem_cons.mp h with heq | h
                    · exact absurd heq (by omega)
                    · exact h
                have hcmax : ∀ x ∈ c :: d :: e5 :: r5, x ≤ c := by
                  intro x hx
                  rcases List.mem_cons.mp hx with rfl | hx2
                  · exact le_refl x
                  · exact List.rel_of_sorted_cons hstail.of_cons _ hx2
                have hcne : c ≠ b := by
                  intro h
                  exact hbnotin (by simp [h])
                have hc2 : c = w + 2 := by
                  have hub : c ≤ b := hbmax c (by simp)
                  have hlb : w + 2 ≤ c := hcmax _ h2t
                  omega
                have hcnotin : c ∉ d :: e5 :: r5 := (List.nodup_cons.mp hntail.of_cons).1
                have h1t : w + 1 ∈ d :: e5 :: r5 := by
                  rcases List.mem_cons.mp h1 with heq | h
                  · exact absurd heq (by omega)
                  · rcases List.mem_cons.mp h with heq | h
                    · exact absurd heq (by omega)
                    · rcases List.mem_cons.mp h with heq | h
                      · exact absurd heq (by omega)
                      · exact h
                have hdmax : ∀ x ∈ d :: e5 :: r5, x ≤ d := by
                  intro x hx
                  rcases List.mem_cons.mp hx with rfl | hx2
                  · exact le_refl x
                  · exact List.rel_of_sorted_cons hstail.of_cons.of_cons _ hx2
                have hdne : d ≠ c := by
                  intro h
                  exact hcnotin (by simp [h])
                have hd1 : d = w + 1 := by
                  have hub : d ≤ c := hcmax d (by simp)
                  have hlb : w + 1 ≤ d := hdmax _ h1t
                  omega
                have hdnotin : d ∉ e5 :: r5 := (List.nodup_cons.mp hntail.of_cons.of_cons).1
                have h0t : w ∈ e5 :: r5 := by
                  rcases List.mem_cons.mp h0 with heq | h
                  · exact absurd heq (by omega)
                  · rcases List.mem_cons.mp h with heq | h
                    · exact absurd heq (by omega)
                    · rcases List.mem_cons.mp h with heq | h
                      · exact absurd heq (by omega)
                      · rcases List.mem_cons.mp h with heq | h
                        · exact absurd heq (by omega)
                        · exact h
                have hemax : ∀ x ∈ e5 :: r5, x ≤ e5 := by
                  intro x hx
                  rcases List.mem_cons.mp hx with rfl | hx2
                  · exact le_refl x
                  · exact List.rel_of_sorted_cons hstail.of_cons.of_cons.of_cons _ hx2
                have hene : e5 ≠ d := by
                  intro h
                  exact hdnotin (by simp [h])
                have he0 : e5 = w := by
                  have hub : e5 ≤ d := hdmax e5 (by simp)
                  have hlb : w ≤ e5 := hemax _ h0t
                  omega
                exact hnofire (by omega)
              · have haw : w + 4 ≤ a := hmax _ h4
                have h4t : w + 4 ∈ b :: c :: d :: e5 :: r5 := by
                  rcases List.mem_cons.mp h4 with heq | h
                  · exact absurd heq.symm hcase
                  · exact h
                have h3t : w + 3 ∈ b :: c :: d :: e5 :: r5 := by
                  rcases List.mem_cons.mp h3 with heq | h
                  · exact absurd heq (by omega)
                  · exact h
                have h2t : w + 2 ∈ b :: c :: d :: e5 :: r5 := by
                  rcases List.mem_cons.mp h2 with heq | h
                  · exact absurd heq (by omega)
                  · exact h
                have h1t : w + 1 ∈ b :: c :: d :: e5 :: r5 := by
                  rcases List.mem_cons.mp h1 with heq | h
                  · exact absurd heq (by omega)
                  · exact h
                have h0t : w ∈ b :: c :: d :: e5 :: r5 := by
                  rcases List.mem_cons.mp h0 with heq | h
                  · exact absurd heq (by omega)
                  · exact h
                exact ih hstail hntail h4t h3t h2t h1t h0t

/-- `_check_straight` on wheel ranks with no normal straight returns 5: the
ace is counted low. -/
theorem checkStraight_wheel (rs : List ℕ) (h2r : ∀ r ∈ rs, 2 ≤ r)
    (hw : hasWheelRanks rs) (hns : noNormalStraight rs) : checkStraight rs = 5 := by
  have hmemiff : ∀ x : ℕ, x ∈ (rs.dedup).insertionSort natDesc ↔ x ∈ rs := fun x =>
    (List.perm_insertionSort natDesc rs.dedup).mem_iff.trans (List.mem_dedup)
  have hsorted : List.Sorted natDesc ((rs.dedup).insertionSort natDesc) :=
    List.sorted_insertionSort natDesc _
  have hnodup : ((rs.dedup).insertionSort natDesc).Nodup :=
    (List.perm_insertionSort natDesc rs.dedup).nodup_iff.mpr (List.nodup_dedup rs)
  have hscan : scanStraight ((rs.dedup).insertionSort natDesc) = 0 := by
    rcases scanStraight_windows _ hsorted hnodup with h0 | ⟨e, hem, heq, hm1, hm2, hm3, hm4⟩
    · exact h0
    · exfalso
      have he2 : 2 ≤ e := h2r e ((hmemiff e).mp hem)
      refine hns (e + 4) ((hmemiff _).mp hm4) ⟨by omega, ?_, ?_, ?_, ?_⟩
      · rw [show e + 4 - 1 = e + 3 from by omega]
        exact (hmemiff _).mp hm3
      · rw [show e + 4 - 2 = e + 2 from by omega]
        exact (hmemiff _).mp hm2
      · rw [show e + 4 - 3 = e + 1 from by omega]
        exact (hmemiff _).mp hm1
      · rw [show e + 4 - 4 = e from by omega]
        exact (hmemiff _).mp hem
  unfold checkStraight
  dsimp only
  rw [hscan, if_neg (by norm_num), if_pos ⟨(hmemiff _).mpr hw.1, (hmemiff _).mpr hw.2.1,
    (hmemiff _).mpr hw.2.2.1, (hmemiff _).mpr hw.2.2.2.1, (hmemiff _).mpr hw.2.2.2.2⟩]

/-- `_check_straight` on ranks containing 6-5-4-3-2 returns at least 6. -/
theorem checkStraight_ge6 (rs : List ℕ) (hw : hasSixHighRanks rs) :
    6 ≤ checkStraight rs := by
  have hmemiff : ∀ x : ℕ, x ∈ (rs.dedup).insertionSort natDesc ↔ x ∈ rs := fun x =>
    (List.perm_insertionSort natDesc rs.dedup).mem_iff.trans (List.mem_dedup)
  have hsorted : List.Sorted natDesc ((rs.dedup).insertionSort natDesc) :=
    List.sorted_insertionSort natDesc _
  have hnodup : ((rs.dedup).insertionSort natDesc).Nodup :=
    (List.perm_insertionSort natDesc rs.dedup).nodup_iff.mpr (List.nodup_dedup rs)
  have hge : 2 + 4 ≤ scanStraight ((rs.dedup).insertionSort natDesc) :=
    scanStraight_ge 2 _ hsorted hnodup ((hmemiff _).mpr hw.1) ((hmemiff _).mpr hw.2.1)
      ((hmemiff _).mpr hw.2.2.1) ((hmemiff _).mpr hw.2.2.2.1) ((hmemiff _).mpr hw.2.2.2.2)
  unfold checkStraight
  dsimp only
  rw [if_pos (by omega)]
  exact hge

/-- When the evaluator classifies a hand as a plain straight, its score is
the straight marker OR-ed with the `_check_straight` value of the sorted
ranks. -/
theorem evaluate_straight_branch (hole comm : List Card)
    (hcat : handCategory hole comm = STRAIGHT) :
    evaluate hole comm = (STRAIGHT <<< 20) ||| checkStraight (processRanks hole comm) := by
  unfold handCategory at hcat
  unfold evaluate processRanks
  dsimp only at hcat ⊢
  by_cases he : (hole ++ comm).isEmpty = true
  · rw [if_pos he] at hcat
    exact absurd hcat (by norm_num [STRAIGHT])
  · rw [if_neg he] at hcat
    rw [if_neg he]
    unfold catOf at hcat
    unfold getScore
    dsimp only at hcat ⊢
    cases hfs : flushSuitOf ((processCards (hole ++ comm)).insertionSort rankDesc) with
    | some fs =>
      rw [hfs] at hcat
      dsimp only at hcat
      split_ifs at hcat
      · exact absurd hcat (by norm_num [STRAIGHT_FLUSH, STRAIGHT])
      · exact absurd hcat (by norm_num [FLUSH, STRAIGHT])
    | none =>
      rw [hfs] at hcat
      dsimp only at hcat ⊢
      split_ifs at hcat ⊢ with hst
      · rfl
      · exfalso
        cases hsc : sortedCounts (((processCards (hole ++ comm)).insertionSort rankDesc).map
            Prod.fst) with
        | nil =>
          rw [hsc] at hcat
          dsimp only at hcat
          exact absurd hcat (by norm_num [HIGH_CARD, STRAIGHT])
        | cons hd restC =>
          obtain ⟨r0, c0⟩ := hd
          rw [hsc] at hcat
          dsimp only at hcat
          split_ifs at hcat <;>
            simp [FOUR_OF_A_KIND, FULL_HOUSE, THREE_OF_A_KIND, TWO_PAIR, PAIR,
              HIGH_CARD, STRAIGHT] at hcat

/-- When the evaluator classifies a hand as a straight flush, its score is
the straight-flush marker OR-ed with the `_check_straight` value of the
flush-suit ranks. -/
theorem evaluate_sf_branch (hole comm : List Card)
    (hcat : handCategory hole comm = STRAIGHT_FLUSH) :
    evaluate hole comm = (STRAIGHT_FLUSH <<< 20) |||
      checkStraight (flushRanksOf (processCards (hole ++ comm))) := by
  unfold handCategory at hcat
  unfold evaluate flushRanksOf
  dsimp only at hcat ⊢
  by_cases he : (hole ++ comm).isEmpty = true
  · rw [if_pos he] at hcat
    exact absurd hcat (by norm_num [STRAIGHT_FLUSH])
  · rw [if_neg he] at hcat
    rw [if_neg he]
    unfold catOf at hcat
    unfold getScore
    dsimp only at hcat ⊢
    cases hfs : flushSuitOf ((processCards (hole ++ comm)).insertionSort rankDesc) with
    | some fs =>
      rw [hfs] at hcat
      dsimp only at hcat ⊢
      split_ifs at hcat ⊢ with hsf
      · rfl
      · exact absurd hcat (by norm_num [FLUSH, STRAIGHT_FLUSH])
    | none =>
      rw [hfs] at hcat
      dsimp only at hcat
      exfalso
      split_ifs at hcat with hst
      · exact absurd hcat (by norm_num [STRAIGHT, STRAIGHT_FLUSH])
      · cases hsc : sortedCounts (((processCards (hole ++ comm)).insertionSort rankDesc).map
            Prod.fst) with
        | nil =>
          rw [hsc] at hcat
          dsimp only at hcat
          exact absurd hcat (by norm_num [HIGH_CARD, STRAIGHT_FLUSH])
        | cons hd restC =>
          obtain ⟨r0, c0⟩ := hd
          rw [hsc] at hcat
          dsimp only at hcat
          split_ifs at hcat <;>
            simp [FOUR_OF_A_KIND, FULL_HOUSE, THREE_OF_A_KIND, TWO_PAIR, PAIR,
              HIGH_CARD, STRAIGHT_FLUSH] at hcat

/-- Sorted processed ranks are below 16. -/
theorem processRanks_lt16 (hole comm : List Card) : ∀ r ∈ processRanks hole comm, r < 16 := by
  intro r hr
  unfold processRanks at hr
  obtain ⟨c, hc, hcr⟩ := List.mem_map.mp hr
  subst hcr
  exact processCards_rank_lt _ c ((List.perm_insertionSort rankDesc _).mem_iff.mp hc)

/-- Processed cards carry rank values of at least 2. -/
theorem processCards_rank_ge2 (l : List Card) : ∀ c ∈ processCards l, 2 ≤ c.1 := by
  intro c hc
  obtain ⟨x, hx, hxc⟩ := List.mem_map.mp hc
  subst hxc
  obtain ⟨s, r⟩ := x
  dsimp only
  cases r <;> decide

/-- Sorted processed ranks are at least 2. -/
theorem processRanks_ge2 (hole comm : List Card) : ∀ r ∈ processRanks hole comm, 2 ≤ r := by
  intro r hr
  unfold processRanks at hr
  obtain ⟨c, hc, hcr⟩ := List.mem_map.mp hr
  subst hcr
  exact processCards_rank_ge2 _ c ((List.perm_insertionSort rankDesc _).mem_iff.mp hc)

/-- Flush-suit ranks inherit the lower rank bound. -/
theorem flushRanksOf_ge2 (cards : List PCard) (hb : ∀ c ∈ cards, 2 ≤ c.1) :
    ∀ r ∈ flushRanksOf cards, 2 ≤ r := by
  intro r hr
  unfold flushRanksOf at hr
  dsimp only at hr
  cases hfs : flushSuitOf (cards.insertionSort rankDesc) with
  | none =>
    rw [hfs] at hr
    dsimp only at hr
    exact absurd hr (List.not_mem_nil r)
  | some fs =>
    rw [hfs] at hr
    dsimp only at hr
    obtain ⟨c, hc, hcr⟩ := List.mem_map.mp hr
    subst hcr
    exact hb c ((List.perm_insertionSort rankDesc cards).mem_iff.mp (List.mem_of_mem_filter hc))

/-- Flush-suit ranks inherit the upper rank bound. -/
theorem flushRanksOf_lt16 (cards : List PCard) (hb : ∀ c ∈ cards, c.1 < 16) :
    ∀ r ∈ flushRanksOf cards, r < 16 := by
  intro r hr
  unfold flushRanksOf at hr
  dsimp only at hr
  cases hfs : flushSuitOf (cards.insertionSort rankDesc) with
  | none =>
    rw [hfs] at hr
    dsimp only at hr
    exact absurd hr (List.not_mem_nil r)
  | some fs =>
    rw [hfs] at hr
    dsimp only at hr
    obtain ⟨c, hc, hcr⟩ := List.mem_map.mp hr
    subst hcr
    exact hb c ((List.perm_insertionSort rankDesc cards).mem_iff.mp (List.mem_of_mem_filter hc))

/-- C8: wheel straight ranking — an input whose best hand is the ace-low
straight A-2-3-4-5 (category straight, wheel ranks present, no higher
straight) scores exactly `STRAIGHT * 2^20 + 5`, a 5-high straight; an
ace-low straight flush scores `STRAIGHT_FLUSH * 2^20 + 5`; and in both
categories the wheel scores strictly below any input of the same category
whose ranks contain the 6-high straight 6-5-4-3-2, despite the ace. -/
theorem C8_wheel_ranking :
    (∀ hole comm, handCategory hole comm = STRAIGHT →
        hasWheelRanks (processRanks hole comm) →
        noNormalStraight (processRanks hole comm) →
        evaluate hole comm = STRAIGHT * 2 ^ 20 + 5) ∧
    (∀ hole comm, handCategory hole comm = STRAIGHT_FLUSH →
        hasWheelRanks (flushRanksOf (processCards (hole ++ comm))) →
        noNormalStraight (flushRanksOf (processCards (hole ++ comm))) →
        evaluate hole comm = STRAIGHT_FLUSH * 2 ^ 20 + 5) ∧
    (∀ holeA commA holeB commB,
        handCategory holeA commA = STRAIGHT →
        hasWheelRanks (processRanks holeA commA) →
        noNormalStraight (processRanks holeA commA) →
        handCategory holeB commB = STRAIGHT →
        hasSixHighRanks (processRanks holeB commB) →
        evaluate holeA commA < evaluate holeB commB) ∧
    (∀ holeA commA holeB commB,
        handCategory holeA commA = STRAIGHT_FLUSH →
        hasWheelRanks (flushRanksOf (processCards (holeA ++ commA))) →
        noNormalStraight (flushRanksOf (processCards (holeA ++ commA))) →
        handCategory holeB commB = STRAIGHT_FLUSH →
        hasSixHighRanks (flushRanksOf (processCards (holeB ++ commB))) →
        evaluate holeA commA < evaluate holeB commB) := by
  have part1 : ∀ hole comm, handCategory hole comm = STRAIGHT →
      hasWheelRanks (processRanks hole comm) →
      noNormalStraight (processRanks hole comm) →
      evaluate hole comm = STRAIGHT * 2 ^ 20 + 5 := by
    intro hole comm hcat hw hns
    rw [evaluate_straight_branch hole comm hcat,
      checkStraight_wheel _ (processRanks_ge2 hole comm) hw hns, Nat.shiftLeft_eq]
    exact lor_split_add _ 20 5 (by norm_num)
  have part2 : ∀ hole comm, handCategory hole comm = STRAIGHT_FLUSH →
      hasWheelRanks (flushRanksOf (processCards (hole ++ comm))) →
      noNormalStraight (flushRanksOf (processCards (hole ++ comm))) →
      evaluate hole comm = STRAIGHT_FLUSH * 2 ^ 20 + 5 := by
    intro hole comm hcat hw hns
    rw [evaluate_sf_branch hole comm hcat,
      checkStraight_wheel _ (flushRanksOf_ge2 _ (processCards_rank_ge2 _)) hw hns,
      Nat.shiftLeft_eq]
    exact lor_split_add _ 20 5 (by norm_num)
  refine ⟨part1, part2, ?_, ?_⟩
  · intro holeA commA holeB commB hcatA hwA hnsA hcatB hsB
    rw [part1 holeA commA hcatA hwA hnsA, evaluate_straight_branch holeB commB hcatB]
    have h6 : 6 ≤ checkStraight (processRanks holeB commB) := checkStraight_ge6 _ hsB
    have h16 : checkStraight (processRanks holeB commB) < 16 :=
      checkStraight_lt _ (processRanks_lt16 _ _)
    rw [Nat.shiftLeft_eq, lor_split_add _ 20 _ (lt_trans h16 (by norm_num))]
    exact Nat.add_lt_add_left (by omega) _
  · intro holeA commA holeB commB hcatA hwA hnsA hcatB hsB
    rw [part2 holeA commA hcatA hwA hnsA, evaluate_sf_branch holeB commB hcatB]
    have h6 : 6 ≤ checkStraight (flushRanksOf (processCards (holeB ++ commB))) :=
      checkStraight_ge6 _ hsB
    have h16 : checkStraight (flushRanksOf (processCards (holeB ++ commB))) < 16 :=
      checkStraight_lt _ (flushRanksOf_lt16 _ (processCards_rank_lt _))
    rw [Nat.shiftLeft_eq, lor_split_add _ 20 _ (lt_trans h16 (by norm_num))]
    exact Nat.add_lt_add_left (by omega) _

/-- Witness: the concrete wheel straight and wheel straight flush score
`4·2^20 + 5` and `8·2^20 + 5`, strictly below the corresponding concrete
6-high hands. -/
theorem C8_wheel_ranking_witness :
    evaluate wheelHole wheelCommunity = STRAIGHT * 2 ^ 20 + 5 ∧
    evaluate wheelSFHole wheelSFCommunity = STRAIGHT_FLUSH * 2 ^ 20 + 5 ∧
    evaluate wheelHole wheelCommunity < evaluate sixHole sixCommunity ∧
    evaluate wheelSFHole wheelSFCommunity < evaluate sixSFHole sixSFCommunity :=
  ⟨C8_wheel_ranking.1 _ _ (by decide) (by unfold hasWheelRanks; decide)
     (by unfold noNormalStraight; decide),
   C8_wheel_ranking.2.1 _ _ (by decide) (by unfold hasWheelRanks; decide)
     (by unfold noNormalStraight; decide),
   C8_wheel_ranking.2.2.1 _ _ _ _ (by decide) (by unfold hasWheelRanks; decide)
     (by unfold noNormalStraight; decide) (by decide) (by unfold hasSixHighRanks; decide),
   C8_wheel_ranking.2.2.2 _ _ _ _ (by decide) (by unfold hasWheelRanks; decide)
     (by unfold noNormalStraight; decide) (by decide) (by unfold hasSixHighRanks; decide)⟩

/-! ### Side-pot partition (C3) -/

theorem pGet_eq_get : ∀ (l : List Player) (i : ℕ) (h : i < l.length), pGet l i = l.get ⟨i, h⟩ := by
  intro l
  induction l with
  | nil => intro i h; simp at h
  | cons p rest ih =>
    intro i h
    cases i with
    | zero => rfl
    | succ j => exact ih j (by simpa using h)

/-- `playersContribs` indexed within range. -/
theorem contribs_getD : ∀ (l : List Player) (i : ℕ), i < l.length →
    (playersContribs l).getD i (0, true) =
      ((pGet l i).bet_this_hand, (pGet l i).is_folded) := by
  intro l
  induction l with
  | nil => intro i h; simp at h
  | cons p rest ih =>
    intro i h
    cases i with
    | zero => rfl
    | succ j =>
      have h1 : (playersContribs (p :: rest)).getD (j + 1) (0, true) =
          (playersContribs rest).getD j (0, true) := rfl
      rw [h1, pGet_cons_succ]
      exact ih j (by simpa using h)

/-- Counting seats through their indices. -/
theorem length_filter_range : ∀ (l : List Player) (q : Player → Bool),
    ((List.range l.length).filter (fun i => q (pGet l i))).length = (l.filter q).length := by
  intro l
  induction l with
  | nil => intro q; rfl
  | cons p rest ih =>
    intro q
    rw [List.length_cons, List.range_succ_eq_map]
    have hmap : ((List.range rest.length).map Nat.succ).filter
          (fun i => q (pGet (p :: rest) i)) =
        ((List.range rest.length).filter (fun i => q (pGet rest i))).map Nat.succ := by
      rw [List.filter_map]
      rfl
    simp only [List.filter_cons, pGet_cons_zero, hmap]
    cases hq : q p with
    | false => simp [List.length_map, ih q]
    | true => simp [List.length_map, ih q]

/-- Membership in the positive-bet collection of `_calculate_pots`, over an
arbitrary enumeration offset. -/
theorem betsFilterMap_mem : ∀ (l : List Player) (k : ℕ) (i : ℕ) (c : ℚ),
    (i, c) ∈ (List.enumFrom k l).filterMap
        (fun x => if 0 < x.2.bet_this_hand then some (x.1, x.2.bet_this_hand) else none) ↔
      (k ≤ i ∧ i - k < l.length ∧ (pGet l (i - k)).bet_this_hand = c ∧ 0 < c) := by
  intro l
  induction l with
  | nil =>
    intro k i c
    simp [List.enumFrom]
  | cons p rest ih =>
    intro k i c
    rw [show List.enumFrom k (p :: rest) = (k, p) :: List.enumFrom (k + 1) rest from rfl,
      List.filterMap_cons]
    dsimp only
    by_cases hp : 0 < p.bet_this_hand
    case pos =>
      rw [if_pos hp]
      dsimp only
      rw [List.mem_cons, ih (k + 1) i c, Prod.mk.injEq]
      constructor
      · rintro (⟨rfl, rfl⟩ | ⟨h1, h2, h3, h4⟩)
        · refine ⟨le_refl _, by simp only [List.length_cons]; omega, ?_, hp⟩
          rw [Nat.sub_self]
          rfl
        · refine ⟨by omega, by simp only [List.length_cons]; omega, ?_, h4⟩
          rw [show i - k = (i - (k + 1)) + 1 from by omega, pGet_cons_succ]
          exact h3
      · rintro ⟨h1, h2, h3, h4⟩
        by_cases hik : i = k
        · left
          subst hik
          rw [Nat.sub_self] at h3
          exact ⟨rfl, h3.symm⟩
        · right
          refine ⟨by omega, ?_, ?_, h4⟩
          · simp only [List.length_cons] at h2
            omega
          · rw [show i - (k + 1) = i - k - 1 from by omega]
            rw [show i - k = (i - k - 1) + 1 from by omega, pGet_cons_succ] at h3
            exact h3
    case neg =>
      rw [if_neg hp]
      dsimp only
      rw [ih (k + 1) i c]
      constructor
      · rintro ⟨h1, h2, h3, h4⟩
        refine ⟨by omega, by simp only [List.length_cons]; omega, ?_, h4⟩
        rw [show i - k = (i - (k + 1)) + 1 from by omega, pGet_cons_succ]
        exact h3
      · rintro ⟨h1, h2, h3, h4⟩
        by_cases hik : i = k
        · exfalso
          subst hik
          rw [Nat.sub_self] at h3
          rw [show pGet (p :: rest) 0 = p from rfl] at h3
          rw [h3] at hp
          exact hp h4
        · refine ⟨by omega, ?_, ?_, h4⟩
          · simp only [List.length_cons] at h2
            omega
          · rw [show i - (k + 1) = i - k - 1 from by omega]
            rw [show i - k = (i - k - 1) + 1 from by omega, pGet_cons_succ] at h3
            exact h3

/-- The collected positive-bet ids are strictly increasing. -/
theorem betsFilterMap_sorted : ∀ (l : List Player) (k : ℕ),
    List.Pairwise (· < ·) (((List.enumFrom k l).filterMap
      (fun x => if 0 < x.2.bet_this_hand then some (x.1, x.2.bet_this_hand) else none)).map
        Prod.fst) := by
  intro l
  induction l with
  | nil => intro k; exact List.Pairwise.nil
  | cons p rest ih =>
    intro k
    rw [show List.enumFrom k (p :: rest) = (k, p) :: List.enumFrom (k + 1) rest from rfl,
      List.filterMap_cons]
    dsimp only
    by_cases hp : 0 < p.bet_this_hand
    case pos =>
      rw [if_pos hp]
      dsimp only
      rw [List.map_cons]
      refine List.Pairwise.cons ?_ (ih (k + 1))
      intro j hj
      obtain ⟨x, hx, hxj⟩ := List.mem_map.mp hj
      obtain ⟨i2, c2⟩ := x
      have := (betsFilterMap_mem rest (k + 1) i2 c2).mp hx
      subst hxj
      omega
    case neg =>
      rw [if_neg hp]
      dsimp only
      exact ih (k + 1)

/-- Membership in the strictly increasing levels above `prev` of an
ascending list. -/
theorem levelsAbove_mem : ∀ (bs : List ℚ) (prev v : ℚ), List.Sorted (· ≤ ·) bs →
    (v ∈ levelsAbove prev bs ↔ (v ∈ bs ∧ prev < v)) := by
  intro bs
  induction bs with
  | nil => intro prev v _; simp [levelsAbove]
  | cons b rest ih =>
    intro prev v hs
    rw [show levelsAbove prev (b :: rest) =
      if prev < b then b :: levelsAbove b rest else levelsAbove prev rest from rfl]
    split
    case isTrue hb =>
      rw [List.mem_cons, ih b v hs.of_cons]
      constructor
      · rintro (rfl | ⟨h1, h2⟩)
        · exact ⟨List.mem_cons_self _ _, hb⟩
        · exact ⟨List.mem_cons_of_mem _ h1, lt_trans hb h2⟩
      · rintro ⟨h1, h2⟩
        rcases List.mem_cons.mp h1 with rfl | h1t
        · exact Or.inl rfl
        · by_cases hvb : b < v
          · exact Or.inr ⟨h1t, hvb⟩
          · exact Or.inl (le_antisymm (not_lt.mp hvb) (List.rel_of_sorted_cons hs v h1t))
    case isFalse hb =>
      rw [ih prev v hs.of_cons]
      constructor
      · rintro ⟨h1, h2⟩
        exact ⟨List.mem_cons_of_mem _ h1, h2⟩
      · rintro ⟨h1, h2⟩
        rcases List.mem_cons.mp h1 with rfl | h1t
        · exact absurd h2 hb
        · exact ⟨h1t, h2⟩

/-- The levels above `prev` are strictly increasing. -/
theorem levelsAbove_pairwise : ∀ (bs : List ℚ) (prev : ℚ), List.Sorted (· ≤ ·) bs →
    List.Pairwise (· < ·) (levelsAbove prev bs) := by
  intro bs
  induction bs with
  | nil => intro prev _; exact List.Pairwise.nil
  | cons b rest ih =>
    intro prev hs
    rw [show levelsAbove prev (b :: rest) =
      if prev < b then b :: levelsAbove b rest else levelsAbove prev rest from rfl]
    split
    · refine List.Pairwise.cons ?_ (ih b hs.of_cons)
      intro v hv
      exact ((levelsAbove_mem rest b v hs.of_cons).mp hv).2
    · exact ih prev hs.of_cons

/-- The loop of `_calculate_pots` refines the spec-side per-level pot
construction, as long as some seat attaining the maximal contribution has
not folded (so every level has an eligible winner and the dead-money merge
branch never fires). -/
theorem calcPotsAux_spec (players : List Player)
    (hmax : ∃ m, m < players.length ∧ (pGet players m).is_folded = false ∧
      ∀ j, j < players.length →
        (pGet players j).bet_this_hand ≤ (pGet players m).bet_this_hand) :
    ∀ (S : List (ℕ × ℚ)) (R : List ℕ) (prev : ℚ) (pots : List Pot),
    List.Sorted betAsc S →
    List.Pairwise (· < ·) R →
    R.Perm (S.map Prod.fst) →
    (∀ x ∈ S, x.1 < players.length ∧ (pGet players x.1).bet_this_hand = x.2) →
    (∀ x ∈ S, prev ≤ x.2) →
    (∀ i, i < players.length → i ∉ R → (pGet players i).bet_this_hand ≤ prev) →
    calcPotsAux players prev pots S R =
      pots ++ specPotsFrom (playersContribs players) prev
        (levelsAbove prev (S.map Prod.snd)) := by
  obtain ⟨m, hmn, hmunf, hmmax⟩ := hmax
  intro S
  induction S with
  | nil =>
    intro R prev pots _ _ _ _ _ _
    simp [calcPotsAux, levelsAbove, specPotsFrom]
  | cons hd rest ih =>
    obtain ⟨pid, b⟩ := hd
    intro R prev pots hsort hRsort hperm hentries hprev houtside
    have hRnodup : R.Nodup := List.Pairwise.imp (fun h => Nat.ne_of_lt h) hRsort
    have hpid := hentries (pid, b) (List.mem_cons_self _ _)
    obtain ⟨hpidn, hpidc⟩ := hpid
    dsimp only at hpidn hpidc
    by_cases hlt : prev < b
    · -- a strictly higher level: one new pot
      have hmemR : ∀ i, i ∈ R ↔
          (i < players.length ∧ b ≤ (pGet players i).bet_this_hand) := by
        intro i
        constructor
        · intro hi
          obtain ⟨x, hxS, hxi⟩ := List.mem_map.mp (hperm.subset hi)
          obtain ⟨hxn, hxc⟩ := hentries x hxS
          subst hxi
          refine ⟨hxn, ?_⟩
          rw [hxc]
          rcases List.mem_cons.mp hxS with rfl | hxrest
          · exact le_refl _
          · exact List.rel_of_sorted_cons hsort x hxrest
        · rintro ⟨hin, hge⟩
          by_contra hnotin
          have hle := houtside i hin hnotin
          linarith
      have hmR : m ∈ R := by
        rw [hmemR m]
        refine ⟨hmn, ?_⟩
        rw [← hpidc]
        exact hmmax pid hpidn
      have heligne : ¬((R.filter (fun i => ¬ (pGet players i).is_folded)).isEmpty = true) := by
        intro hemp
        have hm2 : m ∈ R.filter (fun i => ¬ (pGet players i).is_folded) := by
          rw [List.mem_filter]
          exact ⟨hmR, by simp [hmunf]⟩
        rw [List.isEmpty_iff.mp hemp] at hm2
        exact absurd hm2 (List.not_mem_nil m)
      have hcount : R.length = ((playersContribs players).filter (fun c => b ≤ c.1)).length := by
        have hpermR : R.Perm ((List.range players.length).filter
            (fun i => decide (b ≤ (pGet players i).bet_this_hand))) := by
          refine (List.perm_ext_iff_of_nodup hRnodup
            ((List.nodup_range _).filter _)).mpr ?_
          intro a
          rw [hmemR a, List.mem_filter, List.mem_range]
          simp
        rw [hpermR.length_eq]
        refine Eq.trans (length_filter_range players
          (fun p => decide (b ≤ p.bet_this_hand))) ?_
        unfold playersContribs
        rw [List.filter_map, List.length_map]
        rfl
      have helig : R.filter (fun i => ¬ (pGet players i).is_folded) =
          (List.range (playersContribs players).length).filter
            (fun i => b ≤ ((playersContribs players).getD i (0, true)).1 ∧
              ((playersContribs players).getD i (0, true)).2 = false) := by
        rw [show (playersContribs players).length = players.length from
          List.length_map _ _]
        refine @List.eq_of_perm_of_sorted ℕ (· < ·) _ _ _ ?_ ?_ ?_
        · refine (List.perm_ext_iff_of_nodup (hRnodup.filter _)
            ((List.nodup_range _).filter _)).mpr ?_
          intro a
          rw [List.mem_filter, List.mem_filter, List.mem_range, hmemR a]
          constructor
          · rintro ⟨⟨han, hab⟩, hfold⟩
            refine ⟨han, ?_⟩
            rw [contribs_getD players a han]
            simp only [decide_eq_true_eq, Bool.not_eq_true] at hfold
            simp [hab, hfold]
          · rintro ⟨han, hcond⟩
            rw [contribs_getD players a han] at hcond
            simp only [decide_eq_true_eq] at hcond
            exact ⟨⟨han, hcond.1⟩, by simp [hcond.2]⟩
        · exact List.Pairwise.filter _ hRsort
        · exact List.Pairwise.filter _ (List.pairwise_lt_range _)
      have hpot : (⟨(b - prev) * (R.length : ℚ),
            R.filter (fun i => ¬ (pGet players i).is_folded)⟩ : Pot) =
          ⟨(b - prev) * (((playersContribs players).filter (fun c => b ≤ c.1)).length : ℚ),
            (List.range (playersContribs players).length).filter
              (fun i => b ≤ ((playersContribs players).getD i (0, true)).1 ∧
                ((playersContribs players).getD i (0, true)).2 = false)⟩ := by
        rw [hcount, helig]
      have hih := ih (R.erase pid) b
        (pots ++ [⟨(b - prev) * (R.length : ℚ),
          R.filter (fun i => ¬ (pGet players i).is_folded)⟩])
        hsort.of_cons
        (List.Pairwise.sublist (List.erase_sublist _ _) hRsort)
        (by
          have h := hperm.erase pid
          rw [show ((pid, b) :: rest).map Prod.fst = pid :: rest.map Prod.fst from rfl,
            List.erase_cons_head] at h
          exact h)
        (fun x hx => hentries x (List.mem_cons_of_mem _ hx))
        (fun x hx => List.rel_of_sorted_cons hsort x hx)
        (by
          intro i hin hnotin
          by_cases hip : i = pid
          · subst hip
            rw [hpidc]
          · have hiR : i ∉ R := fun hiR =>
              hnotin (hRnodup.mem_erase_iff.mpr ⟨hip, hiR⟩)
            exact le_trans (houtside i hin hiR) (le_of_lt hlt))
      simp only [calcPotsAux]
      rw [if_pos hlt, if_neg heligne, hih]
      rw [show ((pid, b) :: rest).map Prod.snd = b :: rest.map Prod.snd from rfl]
      rw [show levelsAbove prev (b :: rest.map Prod.snd) =
          b :: levelsAbove b (rest.map Prod.snd) from by
        simp only [levelsAbove]
        rw [if_pos hlt]]
      rw [show specPotsFrom (playersContribs players) prev
          (b :: levelsAbove b (rest.map Prod.snd)) =
          (⟨(b - prev) *
              (((playersContribs players).filter (fun c => b ≤ c.1)).length : ℚ),
            (List.range (playersContribs players).length).filter
              (fun i => b ≤ ((playersContribs players).getD i (0, true)).1 ∧
                ((playersContribs players).getD i (0, true)).2 = false)⟩ : Pot) ::
            specPotsFrom (playersContribs players) b
              (levelsAbove b (rest.map Prod.snd)) from rfl]
      rw [List.append_assoc, List.singleton_append, hpot]
    · -- a repeated level: nothing new
      have hble : b ≤ prev := not_lt.mp hlt
      have hbeq : b = prev := le_antisymm hble (hprev (pid, b) (List.mem_cons_self _ _))
      have hih := ih (R.erase pid) prev pots
        hsort.of_cons
        (List.Pairwise.sublist (List.erase_sublist _ _) hRsort)
        (by
          have h := hperm.erase pid
          rw [show ((pid, b) :: rest).map Prod.fst = pid :: rest.map Prod.fst from rfl,
            List.erase_cons_head] at h
          exact h)
        (fun x hx => hentries x (List.mem_cons_of_mem _ hx))
        (fun x hx => hprev x (List.mem_cons_of_mem _ hx))
        (by
          intro i hin hnotin
          by_cases hip : i = pid
          · subst hip
            rw [hpidc, hbeq]
          · have hiR : i ∉ R := fun hiR =>
              hnotin (hRnodup.mem_erase_iff.mpr ⟨hip, hiR⟩)
            exact houtside i hin hiR)
      simp only [calcPotsAux]
      rw [if_neg hlt, hih]
      rw [show ((pid, b) :: rest).map Prod.snd = b :: rest.map Prod.snd from rfl]
      rw [show levelsAbove prev (b :: rest.map Prod.snd) =
          levelsAbove prev (rest.map Prod.snd) from by
        simp only [levelsAbove]
        rw [if_neg hlt]]

/-- The collected positive bets carry exactly the positive seat
contributions as values. -/
theorem bets_value_mem (players : List Player) (v : ℚ) :
    v ∈ ((players.enum.filterMap (fun x =>
        if 0 < x.2.bet_this_hand then some (x.1, x.2.bet_this_hand) else none)).map
          Prod.snd) ↔
      ((∃ p ∈ players, p.bet_this_hand = v) ∧ 0 < v) := by
  constructor
  · intro hv
    obtain ⟨x, hx, hxv⟩ := List.mem_map.mp hv
    obtain ⟨i, c⟩ := x
    rw [show players.enum = List.enumFrom 0 players from rfl] at hx
    obtain ⟨h0, hlen, hbet, hpos⟩ := (betsFilterMap_mem players 0 i c).mp hx
    subst hxv
    rw [Nat.sub_zero] at hlen hbet
    exact ⟨⟨pGet players i, pGet_mem players i hlen, hbet⟩, hpos⟩
  · rintro ⟨⟨p, hpmem, hpv⟩, hpos⟩
    obtain ⟨⟨i, hi⟩, hg⟩ := List.mem_iff_get.mp hpmem
    refine List.mem_map.mpr ⟨(i, v), ?_, rfl⟩
    rw [show players.enum = List.enumFrom 0 players from rfl]
    rw [betsFilterMap_mem players 0 i v]
    refine ⟨Nat.zero_le i, by simpa using hi, ?_, hpos⟩
    rw [Nat.sub_zero, pGet_eq_get players i hi, hg]
    exact hpv

/-- The spec's ascending distinct positive levels coincide with the strictly
increasing levels the sorted bet list presents to the loop. -/
theorem specLevels_bridge (players : List Player) :
    levelsAbove 0 (((players.enum.filterMap (fun x =>
        if 0 < x.2.bet_this_hand then some (x.1, x.2.bet_this_hand) else none)).insertionSort
          betAsc).map Prod.snd) =
      specLevels ((playersContribs players).map Prod.fst) := by
  have hsorted2 : List.Sorted (· ≤ ·) (((players.enum.filterMap (fun x =>
      if 0 < x.2.bet_this_hand then some (x.1, x.2.bet_this_hand) else none)).insertionSort
        betAsc).map Prod.snd) :=
    List.Pairwise.map _ (fun a b h => h) (List.sorted_insertionSort betAsc _)
  have hnd1 : (levelsAbove 0 (((players.enum.filterMap (fun x =>
      if 0 < x.2.bet_this_hand then some (x.1, x.2.bet_this_hand) else none)).insertionSort
        betAsc).map Prod.snd)).Nodup :=
    List.Pairwise.imp (fun h => ne_of_lt h) (levelsAbove_pairwise _ 0 hsorted2)
  have hnd2 : (specLevels ((playersContribs players).map Prod.fst)).Nodup := by
    unfold specLevels
    exact (List.perm_insertionSort _ _).nodup_iff.mpr (List.nodup_dedup _)
  have hsorted3 : List.Pairwise (· < ·)
      (specLevels ((playersContribs players).map Prod.fst)) := by
    unfold specLevels
    refine List.Pairwise.imp (fun hh => lt_of_le_of_ne hh.1 hh.2)
      (List.Pairwise.and (List.sorted_insertionSort _ _) ?_)
    exact (List.perm_insertionSort _ _).nodup_iff.mpr (List.nodup_dedup _)
  refine @List.eq_of_perm_of_sorted ℚ (· < ·) _ _ _
    ((List.perm_ext_iff_of_nodup hnd1 hnd2).mpr ?_)
    (levelsAbove_pairwise _ 0 hsorted2) hsorted3
  intro v
  rw [levelsAbove_mem _ 0 v hsorted2]
  have hperm2 := (List.perm_insertionSort betAsc (players.enum.filterMap (fun x =>
    if 0 < x.2.bet_this_hand then some (x.1, x.2.bet_this_hand) else none))).map Prod.snd
  constructor
  · rintro ⟨hv1, hv2⟩
    rw [hperm2.mem_iff] at hv1
    obtain ⟨⟨p, hp, hpv⟩, -⟩ := (bets_value_mem players v).mp hv1
    unfold specLevels
    rw [(List.perm_insertionSort _ _).mem_iff, List.mem_dedup, List.mem_filter]
    refine ⟨?_, by simpa using hv2⟩
    unfold playersContribs
    rw [List.map_map]
    exact List.mem_map.mpr ⟨p, hp, hpv⟩
  · intro hv
    unfold specLevels at hv
    rw [(List.perm_insertionSort _ _).mem_iff, List.mem_dedup, List.mem_filter] at hv
    obtain ⟨hv1, hv2⟩ := hv
    have hv2b : (0 : ℚ) < v := by simpa using hv2
    refine ⟨?_, hv2b⟩
    rw [hperm2.mem_iff]
    apply (bets_value_mem players v).mpr
    refine ⟨?_, hv2b⟩
    unfold playersContribs at hv1
    rw [List.map_map] at hv1
    obtain ⟨p, hp, hpv⟩ := List.mem_map.mp hv1
    exact ⟨p, hp, hpv⟩

/-- C3 (amended): whenever some seat attaining the maximal hand-long
contribution has not folded (true at every real showdown), `_calculate_pots`
computes exactly the spec's partition — one pot per distinct positive
contribution level in ascending order, of amount `(level − previous) ×
#(seats contributing ≥ level)`, eligible to the non-folded seats among those
contributors.  Without that condition the dead-money merge branch folds a
level into the previous pot (see the counterexample). -/
theorem C3_side_pot_partition (players : List Player)
    (hmax : maxContributorUnfolded players) :
    calculatePots players = specSidePots (playersContribs players) := by
  rcases hmax with hnil | ⟨p, hpmem, hpunf, hpmax⟩
  · subst hnil
    rfl
  · have hmax2 : ∃ m, m < players.length ∧ (pGet players m).is_folded = false ∧
        ∀ j, j < players.length →
          (pGet players j).bet_this_hand ≤ (pGet players m).bet_this_hand := by
      obtain ⟨⟨mi, hmi⟩, hg⟩ := List.mem_iff_get.mp hpmem
      refine ⟨mi, hmi, ?_, ?_⟩
      · rw [pGet_eq_get players mi hmi, hg]
        exact hpunf
      · intro j hj
        rw [pGet_eq_get players mi hmi, hg]
        exact hpmax _ (pGet_mem players j hj)
    have hRsorted : List.Pairwise (· < ·) ((players.enum.filterMap (fun x =>
        if 0 < x.2.bet_this_hand then some (x.1, x.2.bet_this_hand) else none)).map
          Prod.fst) := by
      rw [show players.enum = List.enumFrom 0 players from rfl]
      exact betsFilterMap_sorted players 0
    have hperm0 : ((players.enum.filterMap (fun x =>
        if 0 < x.2.bet_this_hand then some (x.1, x.2.bet_this_hand) else none)).map
          Prod.fst).Perm (((players.enum.filterMap (fun x =>
        if 0 < x.2.bet_this_hand then some (x.1, x.2.bet_this_hand) else none)).insertionSort
          betAsc).map Prod.fst) :=
      ((List.perm_insertionSort betAsc _).map Prod.fst).symm
    have hentries0 : ∀ x ∈ (players.enum.filterMap (fun x =>
        if 0 < x.2.bet_this_hand then some (x.1, x.2.bet_this_hand) else none)).insertionSort
          betAsc, x.1 < players.length ∧ (pGet players x.1).bet_this_hand = x.2 := by
      intro x hx
      obtain ⟨i, c⟩ := x
      have hx2 := (List.perm_insertionSort betAsc _).mem_iff.mp hx
      rw [show players.enum = List.enumFrom 0 players from rfl] at hx2
      obtain ⟨-, hlen, hbet, -⟩ := (betsFilterMap_mem players 0 i c).mp hx2
      rw [Nat.sub_zero] at hlen hbet
      exact ⟨hlen, hbet⟩
    have hprev0 : ∀ x ∈ (players.enum.filterMap (fun x =>
        if 0 < x.2.bet_this_hand then some (x.1, x.2.bet_this_hand) else none)).insertionSort
          betAsc, (0 : ℚ) ≤ x.2 := by
      intro x hx
      obtain ⟨i, c⟩ := x
      have hx2 := (List.perm_insertionSort betAsc _).mem_iff.mp hx
      rw [show players.enum = List.enumFrom 0 players from rfl] at hx2
      obtain ⟨-, -, -, hpos⟩ := (betsFilterMap_mem players 0 i c).mp hx2
      exact le_of_lt hpos
    have houtside0 : ∀ i, i < players.length →
        i ∉ ((players.enum.filterMap (fun x =>
          if 0 < x.2.bet_this_hand then some (x.1, x.2.bet_this_hand) else none)).map
            Prod.fst) → (pGet players i).bet_this_hand ≤ 0 := by
      intro i hin hnotin
      by_contra hpos
      push_neg at hpos
      apply hnotin
      refine List.mem_map.mpr ⟨(i, (pGet players i).bet_this_hand), ?_, rfl⟩
      rw [show players.enum = List.enumFrom 0 players from rfl]
      rw [betsFilterMap_mem players 0 i _]
      exact ⟨Nat.zero_le _, by simpa using hin, by rw [Nat.sub_zero], hpos⟩
    have hmain := calcPotsAux_spec players hmax2
      ((players.enum.filterMap (fun x =>
        if 0 < x.2.bet_this_hand then some (x.1, x.2.bet_this_hand) else none)).insertionSort
          betAsc)
      ((players.enum.filterMap (fun x =>
        if 0 < x.2.bet_this_hand then some (x.1, x.2.bet_this_hand) else none)).map
          Prod.fst) 0 []
      (List.sorted_insertionSort betAsc _) hRsorted hperm0 hentries0 hprev0 houtside0
    unfold calculatePots
    dsimp only
    rw [hmain, List.nil_append, specLevels_bridge players]
    rfl

/-- C3 counterexample: when the single maximal contributor has folded
(seat 0 with 100 against two live seats with 50), the engine merges the dead
top level into the previous pot — one pot of 200 — while the spec's
partition demands a pot per level ([150 to seats 1 and 2, then 50 with no
eligible winner]); the partition property fails. -/
theorem C3_side_pot_counterexample :
    calculatePots c3DeadTopPlayers = [⟨200, [1, 2]⟩] ∧
    specSidePots (playersContribs c3DeadTopPlayers) = [⟨150, [1, 2]⟩, ⟨50, []⟩] ∧
    calculatePots c3DeadTopPlayers ≠ specSidePots (playersContribs c3DeadTopPlayers) := by
  refine ⟨?_, ?_, ?_⟩ <;>
    norm_num +decide [calculatePots, calcPotsAux, addToLastPot, playersContribs,
      specSidePots, specPotsFrom, specLevels, c3DeadTopPlayers, pGet, Player.is_folded,
      betAsc, List.insertionSort, List.orderedInsert, List.dedup_nil,
      List.dedup_cons_of_mem, List.dedup_cons_of_not_mem, List.filter_cons,
      List.range_succ, List.getD_cons_zero, List.getD_cons_succ, List.enum,
      List.enumFrom, List.filterMap_cons]

/-- Witness: the spec's own example — contributions 1000/500/200, nobody
folded — where the partition theorem applies and yields pots of 600, 600
and 500. -/
theorem C3_side_pot_partition_witness :
    maxContributorUnfolded c3Players ∧
    calculatePots c3Players = specSidePots (playersContribs c3Players) ∧
    calculatePots c3Players = [⟨600, [0, 1, 2]⟩, ⟨600, [0, 1]⟩, ⟨500, [0]⟩] := by
  have h1 : maxContributorUnfolded c3Players := by
    refine Or.inr ⟨_, List.mem_cons_self _ _, by decide, ?_⟩
    intro q hq
    simp only [c3Players, List.mem_cons, List.not_mem_nil, or_false] at hq
    rcases hq with rfl | rfl | rfl <;> norm_num
  refine ⟨h1, C3_side_pot_partition c3Players h1, ?_⟩
  norm_num +decide [calculatePots, calcPotsAux, addToLastPot, c3Players, pGet,
    Player.is_folded, betAsc, List.insertionSort, List.orderedInsert, List.filter_cons,
    List.enum, List.enumFrom, List.filterMap_cons]

end TdaPoker
